import Mathlib

/-!
Verification of the cloudpuff/cloudformer template compiler.

This file gives a shallow embedding of the template engine:

* `PyVal` models the Python values flowing through the compiler (strings,
  `VarReference`, `IfCondition`, list subclasses, ordered dicts).
* `TState` models `TemplateState`; the Python `unresolved_variables` set of
  objects is modelled as a list of object ids (CPython hashes such objects by
  identity, so the set behaves as a set of ids).
* `process_tree` / `process_tree_cf` embed the cloudpuff and cloudformer
  variants of `TemplateState.process_tree`; the `fuel` argument models
  Python's recursion limit (each nested call consumes one unit, and
  `RecursionError` is raised when the budget is exhausted).
* Later sections embed the expression parser, the string-parser stack
  machine, the reader's fixed-point loop and the compiler's tag resolution.
-/

namespace CloudPuff

/-- Exceptions raised by the embedded code. -/
inductive Err where
  | keyError (msg : String)
  | typeError
  | attributeError (msg : String)
  | constructorError (msg : String)
  | exprParseError (msg : String)
  | invalidTagError
  | assertionError
  | indexError
  | recursionError
  deriving Repr, DecidableEq

/-- The three list types of templates/state.py: plain `list`,
`VarsStringsList` and `UncollapsibleList`. -/
inductive ListKind where
  | plain
  | varsStrings
  | uncollapsible
  deriving Repr, DecidableEq

/-- Shallow embedding of the Python values the template engine manipulates.
`varRef` carries the CPython object id next to the variable name (the
`unresolved_variables` set hashes `VarReference` objects by identity).
`pyNone` is Python `None`. -/
inductive PyVal where
  | str (s : String)
  | pyNone
  | varRef (id : Nat) (name : String)
  | ifCond (cond : PyVal)
  | list (kind : ListKind) (items : List PyVal)
  | dict (pairs : List (PyVal × PyVal))

mutual

/-- Structural equality test on `PyVal` (Python `==` on these values). -/
def PyVal.beq : PyVal → PyVal → Bool
  | .str a, .str b => a == b
  | .pyNone, .pyNone => true
  | .varRef i a, .varRef j b => i == j && a == b
  | .ifCond a, .ifCond b => PyVal.beq a b
  | .list k a, .list l b => k == l && PyVal.beqList a b
  | .dict a, .dict b => PyVal.beqPairs a b
  | _, _ => false

/-- Equality test on lists of values. -/
def PyVal.beqList : List PyVal → List PyVal → Bool
  | [], [] => true
  | a :: as1, b :: bs1 => PyVal.beq a b && PyVal.beqList as1 bs1
  | _, _ => false

/-- Equality test on key/value pair lists. -/
def PyVal.beqPairs : List (PyVal × PyVal) → List (PyVal × PyVal) → Bool
  | [], [] => true
  | (k, v) :: as1, (l, w) :: bs1 =>
    PyVal.beq k l && PyVal.beq v w && PyVal.beqPairs as1 bs1
  | _, _ => false

end

instance : BEq PyVal := ⟨PyVal.beq⟩

mutual

def PyVal.beq_iff : ∀ a b : PyVal, PyVal.beq a b = true ↔ a = b
  | .str a, .str b => by simp [PyVal.beq]
  | .str _, .pyNone | .str _, .varRef _ _ | .str _, .ifCond _
  | .str _, .list _ _ | .str _, .dict _ => by simp [PyVal.beq]
  | .pyNone, .str _ | .pyNone, .varRef _ _ | .pyNone, .ifCond _
  | .pyNone, .list _ _ | .pyNone, .dict _ => by simp [PyVal.beq]
  | .pyNone, .pyNone => by simp [PyVal.beq]
  | .varRef i a, .varRef j b => by simp [PyVal.beq]
  | .varRef _ _, .str _ | .varRef _ _, .pyNone | .varRef _ _, .ifCond _
  | .varRef _ _, .list _ _ | .varRef _ _, .dict _ => by simp [PyVal.beq]
  | .ifCond a, .ifCond b => by
    simp [PyVal.beq, PyVal.beq_iff a b]
  | .ifCond _, .str _ | .ifCond _, .pyNone | .ifCond _, .varRef _ _
  | .ifCond _, .list _ _ | .ifCond _, .dict _ => by simp [PyVal.beq]
  | .list k a, .list l b => by
    simp [PyVal.beq, PyVal.beqList_iff a b]
  | .list _ _, .str _ | .list _ _, .pyNone | .list _ _, .varRef _ _
  | .list _ _, .ifCond _ | .list _ _, .dict _ => by simp [PyVal.beq]
  | .dict a, .dict b => by
    simp [PyVal.beq, PyVal.beqPairs_iff a b]
  | .dict _, .str _ | .dict _, .pyNone | .dict _, .varRef _ _
  | .dict _, .ifCond _ | .dict _, .list _ _ => by simp [PyVal.beq]

def PyVal.beqList_iff : ∀ a b : List PyVal, PyVal.beqList a b = true ↔ a = b
  | [], [] => by simp [PyVal.beqList]
  | [], _ :: _ => by simp [PyVal.beqList]
  | _ :: _, [] => by simp [PyVal.beqList]
  | a :: as1, b :: bs1 => by
    simp [PyVal.beqList, PyVal.beq_iff a b, PyVal.beqList_iff as1 bs1]

def PyVal.beqPairs_iff :
    ∀ a b : List (PyVal × PyVal), PyVal.beqPairs a b = true ↔ a = b
  | [], [] => by simp [PyVal.beqPairs]
  | [], _ :: _ => by simp [PyVal.beqPairs]
  | _ :: _, [] => by simp [PyVal.beqPairs]
  | (k, v) :: as1, (l, w) :: bs1 => by
    simp [PyVal.beqPairs, PyVal.beq_iff k l, PyVal.beq_iff v w,
      PyVal.beqPairs_iff as1 bs1, Prod.ext_iff]

end

instance : LawfulBEq PyVal where
  eq_of_beq h := (PyVal.beq_iff _ _).1 h
  rfl := (PyVal.beq_iff _ _).2 rfl

instance : DecidableEq PyVal := fun a b =>
  decidable_of_iff (PyVal.beq a b = true) (PyVal.beq_iff a b)

/-- Python `isinstance(x, basestring)` / `isinstance(x, str)`. -/
def isStr : PyVal → Bool
  | .str _ => true
  | _ => false

/-- Python falsiness of a value (empty string, empty list, empty dict and
`None` are falsy). -/
def pyFalsy : PyVal → Bool
  | .str s => s = ""
  | .pyNone => true
  | .list _ items => items.isEmpty
  | .dict pairs => pairs.isEmpty
  | _ => false

/-- `d[k]` on an arbitrary Python value with a string key: dicts look the key
up (raising `KeyError` on a miss), any other value raises `TypeError`. -/
def subscript (v : PyVal) (k : String) : Except Err PyVal :=
  match v with
  | .dict pairs =>
    match pairs.find? (fun p => p.1 == PyVal.str k) with
    | some p => .ok p.2
    | none => .error (.keyError k)
  | _ => .error .typeError

/-- Lookup in a Python dict with string keys (`d.get(k)`). -/
def dictGet (d : List (String × PyVal)) (k : String) : Option PyVal :=
  (d.find? (fun p => p.1 == k)).map (fun p => p.2)

/-- `d[k] = v` on a Python dict with string keys: an existing key keeps its
position and gets the new value, a new key is appended. -/
def dictSet (d : List (String × PyVal)) (k : String) (v : PyVal) :
    List (String × PyVal) :=
  if d.any (fun p => p.1 == k) then
    d.map (fun p => if p.1 == k then (k, v) else p)
  else
    d ++ [(k, v)]

/-- `d.update(other)` on Python dicts with string keys. -/
def dictUpdate (d other : List (String × PyVal)) : List (String × PyVal) :=
  other.foldl (fun acc p => dictSet acc p.1 p.2) d

/-- `d[k] = v` on an ordered mapping with `PyVal` keys, as built by the
`OrderedDict` constructor in `process_tree`. -/
def odictInsert (pairs : List (PyVal × PyVal)) (k v : PyVal) :
    List (PyVal × PyVal) :=
  if pairs.any (fun p => p.1 == k) then
    pairs.map (fun p => if p.1 == k then (k, v) else p)
  else
    pairs ++ [(k, v)]

/-- The state of template processing (`TemplateState`).  The
`unresolved` field models the `unresolved_variables` set as the set of object
ids of the `VarReference` objects it holds; `ifConditions` is the ordered
`if_conditions` table of the cloudpuff variant (unused by the cloudformer
definitions below). -/
structure TState where
  vars : List (String × PyVal) := []
  macros : List (String × PyVal) := []
  unresolved : List Nat := []
  ifConditions : List (String × PyVal) := []
  deriving DecidableEq

/-- `s.add(x)` on the unresolved-ids set. -/
def setAdd (s : List Nat) (x : Nat) : List Nat :=
  if x ∈ s then s else s ++ [x]

/-- `s.discard(x)` on the unresolved-ids set. -/
def setDiscard (s : List Nat) (x : Nat) : List Nat :=
  s.filter (fun y => y ≠ x)

/-- `name.split('.')` at the character level: split at every dot, keeping
empty segments (so it agrees with the Python `str.split` on an explicit
separator). -/
def splitDots (s : String) : List String :=
  (s.toList.foldr
    (fun c acc =>
      match acc with
      | g :: gs => if c = '.' then [] :: g :: gs else (c :: g) :: gs
      | [] => [[c]])
    [[]]).map List.asString

/-- `TemplateState.resolve(name, d)`: dotted-path lookup.  The first path
segment is looked up in the given vars dict, later segments subscript
into the values found. -/
def resolve (name : String) (d : List (String × PyVal)) : Except Err PyVal :=
  match splitDots name with
  | [] => .error (.keyError name)
  | p0 :: rest =>
    match dictGet d p0 with
    | some v => rest.foldlM (fun acc part => subscript acc part) v
    | none => .error (.keyError p0)

/-- `result[-1] += item` in `collapse_variables`: append a string to the last
result item, raising `TypeError` when that item is not a string. -/
def mergeLast (result : List PyVal) (s : String) : Except Err (List PyVal) :=
  match result.getLast? with
  | some (.str t) => .ok (result.dropLast ++ [.str (t ++ s)])
  | some _ => .error .typeError
  | none => .error .indexError

/-- The loop of `TemplateState.collapse_variables` (identical in the
cloudformer and cloudpuff trees).  Arguments: the items still to process, the
`result` accumulator, the `collapse_string` flag and the state. -/
def collapse_variables_go (canCollapse : Bool)
    (vars : List (String × PyVal)) :
    List PyVal → List PyVal → Bool → TState →
    Except Err (List PyVal × TState)
  | [], result, _, st => .ok (result, st)
  | item0 :: rest, result, collapseString, st =>
    let resolved : Except Err (PyVal × Bool × Bool × TState) :=
      match item0 with
      | .varRef id name =>
        match resolve name vars with
        | .ok v => .ok (v, canCollapse, canCollapse, st)
        | .error (.keyError _) =>
          .ok (.varRef id name, collapseString, false,
               { st with unresolved := setAdd st.unresolved id })
        | .error e => .error e
      | _ => .ok (item0, collapseString, false, st)
    match resolved with
    | .error e => .error e
    | .ok (item, collapseS, collapseNext, st1) =>
      match item with
      | .str s =>
        if collapseS ∧ result ≠ [] then
          match mergeLast result s with
          | .ok merged =>
            collapse_variables_go canCollapse vars rest merged
              collapseNext st1
          | .error e => .error e
        else
          collapse_variables_go canCollapse vars rest
            (result ++ [.str s]) collapseNext st1
      | other =>
        collapse_variables_go canCollapse vars rest
          (result ++ [other]) false st1

/-- `TemplateState.collapse_variables(items, vars)`.  The list's kind
determines `can_collapse_string` (`UncollapsibleList` disables folding). -/
def collapse_variables (st : TState) (kind : ListKind) (items : List PyVal)
    (vars : List (String × PyVal)) : Except Err (List PyVal × TState) :=
  collapse_variables_go (kind ≠ ListKind.uncollapsible) vars items []
    false st

/-- `''.join(value)` over a list of string values. -/
def joinStrs (l : List PyVal) : String :=
  l.foldl (fun acc v => acc ++ (match v with | .str s => s | _ => "")) ""

/-- The dict comprehension consumed by the `OrderedDict` constructor in
`process_tree`: process each key with `fKey`, each value with `fVal`, and
insert the pairs in order. -/
def processPairsFold (fKey fVal : TState → PyVal → Except Err (PyVal × TState)) :
    List (PyVal × PyVal) → (List (PyVal × PyVal) × TState) →
    Except Err (List (PyVal × PyVal) × TState)
  | [], acc => .ok acc
  | kv :: rest, acc => do
    let (k1, s1) ← fKey acc.2 kv.1
    let (v1, s2) ← fVal s1 kv.2
    processPairsFold fKey fVal rest (odictInsert acc.1 k1 v1, s2)

/-- The list comprehension of `process_tree` over the collapsed items. -/
def processItemsFold (f : TState → PyVal → Except Err (PyVal × TState)) :
    List PyVal → (List PyVal × TState) → Except Err (List PyVal × TState)
  | [], acc => .ok acc
  | item :: rest, acc => do
    let (v, s1) ← f acc.2 item
    processItemsFold f rest (acc.1 ++ [v], s1)

/-- `TemplateState.process_tree` of cloudpuff/templates/state.py.  `fuel`
models the Python recursion limit; each nested `process_tree` call runs at
`fuel` one smaller.  The dict branch folds the processed key/value pairs
into an ordered mapping exactly as the `OrderedDict` constructor consumes
the generator (keys are processed without condition resolution); the list
branch first collapses adjacent resolvable items and then processes each
collapsed item. -/
def process_tree : Nat → TState → PyVal → List (String × PyVal) → Bool →
    Bool → Except Err (PyVal × TState)
  | 0, _, _, _, _, _ => .error .recursionError
  | fuel + 1, st, node, vars, resolveVars, resolveIfs =>
    match node with
    | .dict pairs => do
      let (pairs1, st1) ← processPairsFold
        (fun s n => process_tree fuel s n vars resolveVars false)
        (fun s n => process_tree fuel s n vars resolveVars resolveIfs)
        pairs ([], st)
      .ok (.dict pairs1, st1)
    | .list kind items => do
      let (collapsed, st1) ← collapse_variables st kind items vars
      let (value, st2) ← processItemsFold
        (fun s n => process_tree fuel s n vars resolveVars resolveIfs)
        collapsed ([], st1)
      match kind with
      | .varsStrings =>
        if value.all isStr then
          .ok (.str (joinStrs value), st2)
        else
          .ok (.dict [(.str "Fn::Join",
                       .list .plain [.str "", .list .plain value])], st2)
      | .uncollapsible => .ok (.list .uncollapsible value, st2)
      | .plain => .ok (.list .plain value, st2)
    | .varRef id name =>
      if resolveVars then
        match resolve name vars with
        | .ok v => .ok (v, { st with unresolved := setDiscard st.unresolved id })
        | .error (.keyError _) =>
          .error (.keyError ("Unknown variable " ++ name))
        | .error e => .error e
      else
        .ok (.varRef id name, st)
    | .ifCond cond =>
      if resolveIfs then do
        let name := "IfCondition" ++ toString (st.ifConditions.length + 1)
        let (cond1, st1) ← process_tree fuel st cond vars resolveVars false
        .ok (.str name,
             { st1 with ifConditions := dictSet st1.ifConditions name cond1 })
      else do
        let (cond1, st1) ← process_tree fuel st cond vars resolveVars false
        .ok (.ifCond cond1, st1)
    | other => .ok (other, st)

/-- `TemplateState.process_tree` of cloudformer/templates/state.py: no
`resolve_if_conditions` flag, no `IfCondition` branch (such nodes fall
through unchanged), and a `VarsStringsList` that does not resolve to all
strings stays a plain list instead of becoming an `Fn::Join`. -/
def process_tree_cf : Nat → TState → PyVal → List (String × PyVal) → Bool →
    Except Err (PyVal × TState)
  | 0, _, _, _, _ => .error .recursionError
  | fuel + 1, st, node, vars, resolveVars =>
    match node with
    | .dict pairs => do
      let (pairs1, st1) ← processPairsFold
        (fun s n => process_tree_cf fuel s n vars resolveVars)
        (fun s n => process_tree_cf fuel s n vars resolveVars)
        pairs ([], st)
      .ok (.dict pairs1, st1)
    | .list kind items => do
      let (collapsed, st1) ← collapse_variables st kind items vars
      let (value, st2) ← processItemsFold
        (fun s n => process_tree_cf fuel s n vars resolveVars)
        collapsed ([], st1)
      match kind with
      | .varsStrings =>
        if value.all isStr then
          .ok (.str (joinStrs value), st2)
        else
          .ok (.list .plain value, st2)
      | .uncollapsible => .ok (.list .uncollapsible value, st2)
      | .plain => .ok (.list .plain value, st2)
    | .varRef id name =>
      if resolveVars then
        match resolve name vars with
        | .ok v => .ok (v, { st with unresolved := setDiscard st.unresolved id })
        | .error (.keyError _) =>
          .error (.keyError ("Unknown variable " ++ name))
        | .error e => .error e
      else
        .ok (.varRef id name, st)
    | other => .ok (other, st)

/-- Set equality on unresolved-ids lists (Python `set ==`). -/
def setEqNat (a b : List Nat) : Bool :=
  a.all (fun x => b.contains x) && b.all (fun x => a.contains x)

/-- The `while` condition of `TemplateReader._resolve_variables`:
`prev_unresolved_vars != self.template_state.unresolved_variables`, where
`prev` is `None` before the first iteration (and `None` compares unequal to
any set). -/
def prevDiffers : Option (List Nat) → List Nat → Bool
  | none, _ => true
  | some prev, cur => !(setEqNat prev cur)

/-- View a document tree (a dict with string keys) as a variables dict, for
`process_tree(doc_tree, doc_tree)`.  Non-string keys cannot be found by
`resolve` (which looks up string path segments), so they are dropped. -/
def asVarsDict : PyVal → List (String × PyVal)
  | .dict pairs =>
    pairs.filterMap (fun p =>
      match p.1 with
      | .str s => some (s, p.2)
      | _ => none)
  | _ => []

/-- The loop of `TemplateReader._resolve_variables`
(cloudformer/templates/reader.py): while the snapshot differs from the
current unresolved set, reprocess the document against itself and snapshot
the set.  `bound` bounds the number of iterations; the Python loop is
unbounded, and we prove below that the bound is never reached when it is at
least two. -/
def resolve_variables_loop (ptFuel : Nat) :
    Nat → Option (List Nat) → TState → PyVal → Except Err (PyVal × TState)
  | 0, _, _, _ => .error .recursionError
  | _bound + 1, prev, st, docTree =>
    if prevDiffers prev st.unresolved then
      match process_tree_cf ptFuel st docTree (asVarsDict docTree) true with
      | .error e => .error e
      | .ok (docTree1, st1) =>
        resolve_variables_loop ptFuel _bound (some st1.unresolved) st1 docTree1
    else
      .ok (docTree, st)

/-- `TemplateReader._resolve_variables(reader, doc)`: run the fixed-point
loop on the document, starting with no snapshot. -/
def resolve_variables (ptFuel bound : Nat) (st : TState) (docTree : PyVal) :
    Except Err (PyVal × TState) :=
  resolve_variables_loop ptFuel bound none st docTree

/-- `macro.get('defaultParams', {})` then the overlay built by
`construct_call_macro`: the caller's ambient variables, updated with the
macro's default parameters, updated with the explicit call-site values. -/
def macro_scope (ambient : List (String × PyVal)) (defaults : PyVal)
    (overrides : List (String × PyVal)) : List (String × PyVal) :=
  dictUpdate (dictUpdate ambient (asVarsDict defaults)) overrides

/-- `d.get(k, default)` on a `PyVal` dict with string keys. -/
def pyDictGetD (v : PyVal) (k : String) (dflt : PyVal) : PyVal :=
  match v with
  | .dict pairs =>
    match pairs.find? (fun p => p.1 == PyVal.str k) with
    | some p => p.2
    | none => dflt
  | _ => dflt

/-- `TemplateLoader._process_macro` (cloudformer/templates/reader.py):
process the macro content against the isolated scope, converting a
`KeyError` into a `ConstructorError`. -/
def process_macro_cf (fuel : Nat) (st : TState) (content : PyVal)
    (scope : List (String × PyVal)) : Except Err (PyVal × TState) :=
  match process_tree_cf fuel st content scope true with
  | .error (.keyError m) => .error (.constructorError m)
  | r => r

/-- `TemplateLoader.construct_call_macro` (cloudformer/templates/reader.py).
`values` is the mapping built from the YAML node; `values.pop('macro')`
names the macro (KeyError when absent), the macro is resolved in the shared
macro table (a miss becomes a ConstructorError), and the content is
processed in an isolated scope built from a copy of the ambient variables,
the macro defaults and the remaining call-site values. -/
def construct_call_macro_cf (fuel : Nat) (st : TState)
    (values : List (String × PyVal)) : Except Err (PyVal × TState) :=
  match dictGet values "macro" with
  | none => .error (.keyError "macro")
  | some nameVal =>
    match nameVal with
    | .str name =>
      let overrides := values.filter (fun p => p.1 ≠ "macro")
      match resolve name st.macros with
      | .error (.keyError _) =>
        .error (.constructorError (name ++ " is not a valid macro"))
      | .error e => .error e
      | .ok mac =>
        match subscript mac "content" with
        | .error (.keyError _) =>
          .error (.constructorError (name ++ " is not a valid macro"))
        | .error e => .error e
        | .ok content =>
          let defaults := pyDictGetD mac "defaultParams" (.dict [])
          process_macro_cf fuel st content
            (macro_scope st.vars defaults overrides)
    | _ => .error (.attributeError "split")


/-! ## Expression parser (cloudpuff/templates/expression_parser.py)

The parser is generic over the regex, operator table and callbacks; its
values here are `PyVal` (the in-repo instantiation processes values into
template values), with `pyNone` standing for the Python `None` that
`_compute_atom` implicitly returns on a right-parenthesis token. -/

/-- A token produced by `ExpressionParser._iter_tokens`. -/
inductive Tok where
  | leftParen
  | rightParen
  | op (s : String)
  | value (v : PyVal)
  deriving DecidableEq

/-- The operator table: symbol to (precedence, associativity). -/
abbrev OpTable := List (String × Nat × String)

/-- `self.ops[o]` as an optional lookup. -/
def lookupOp (ops : OpTable) (o : String) : Option (Nat × String) :=
  (ops.find? (fun p => p.1 == o)).map (fun p => p.2)

/-- The token-stream state inside one `parse` call: the current token
(`_cur_token`) and the not-yet-consumed rest of the generator. -/
structure PState where
  cur : Option Tok
  rest : List Tok
  deriving DecidableEq

/-- Number of unconsumed tokens, counting the current one. -/
def psize (st : PState) : Nat :=
  st.rest.length + (if st.cur.isSome then 1 else 0)

/-- `ExpressionParser._next_token`: pull the next token from the generator,
or clear the current token at the end of the stream. -/
def nextToken (st : PState) : PState :=
  match st.rest with
  | t :: ts => ⟨some t, ts⟩
  | [] => ⟨none, []⟩

/-- Consuming a present current token strictly shrinks the stream. -/
def psize_nextToken_lt (st : PState) (h : st.cur.isSome) :
    psize (nextToken st) < psize st := by
  cases hr : st.rest <;> simp [psize, nextToken, hr, h]

/-- `_next_token` never grows the stream. -/
def psize_nextToken_le (st : PState) : psize (nextToken st) ≤ psize st := by
  cases hr : st.rest <;> cases hc : st.cur <;>
    simp [psize, nextToken, hr, hc]

/-- `ExpressionParser._compute_op`: re-check the operator is known, then
combine via the provided callback. -/
def compute_op (ops : OpTable) (processOp : String → PyVal → PyVal → PyVal)
    (o : String) (lhs rhs : PyVal) : Except Err PyVal :=
  if (lookupOp ops o).isSome then .ok (processOp o lhs rhs)
  else .error (.exprParseError ("Unknown operator " ++ o))

mutual

/-- `ExpressionParser._compute_atom`: a value, or a parenthesized
sub-expression computed recursively at minimum precedence 1.  Two faithful
quirks: when the stream ends right after the sub-expression,
`self._cur_token.name` dereferences `None` and raises `AttributeError`
instead of the parse error raised when a non-parenthesis token follows; and
a right-parenthesis token matches none of the branches, so the Python
function implicitly returns `None` without consuming it. -/
def compute_atom (ops : OpTable) (processOp : String → PyVal → PyVal → PyVal)
    (st : PState) :
    Except Err (PyVal × {st1 : PState // psize st1 ≤ psize st}) :=
  match h : st.cur with
  | none => .error (.exprParseError "Unexpected end of expression")
  | some .leftParen =>
    match compute_expression ops processOp 1 (nextToken st) with
    | .error e => .error e
    | .ok (v, ⟨st2, h2⟩) =>
      match st2.cur with
      | none => .error (.attributeError "NoneType object has no attribute name")
      | some .rightParen =>
        .ok (v, ⟨nextToken st2, by
          have h3 := psize_nextToken_lt st (by simp [h])
          have h4 := psize_nextToken_le st2
          omega⟩)
      | some _ => .error (.exprParseError "Unmatched left parenthesis")
  | some .rightParen => .ok (.pyNone, ⟨st, Nat.le_refl _⟩)
  | some (.op o) =>
    .error (.exprParseError ("Unexpected operator " ++ o ++ " found"))
  | some (.value v) =>
    .ok (v, ⟨nextToken st, psize_nextToken_le st⟩)
termination_by psize st * 3
decreasing_by
  all_goals (have h3 := psize_nextToken_lt st (by simp [h]); omega)

/-- The `while` loop of `ExpressionParser._compute_expression`: while the
current token is an operator of sufficient precedence, consume it, compute
the right-hand side at precedence+1 (left-associative) or at the same
precedence otherwise, and fold through `_compute_op`. -/
def compute_expr_loop (ops : OpTable)
    (processOp : String → PyVal → PyVal → PyVal) (minPrec : Nat) (lhs : PyVal)
    (st : PState) :
    Except Err (PyVal × {st1 : PState // psize st1 ≤ psize st}) :=
  match h : st.cur with
  | some (.op o) =>
    match lookupOp ops o with
    | none => .error (.keyError o)
    | some (prec, assoc) =>
      if prec < minPrec then .ok (lhs, ⟨st, Nat.le_refl _⟩)
      else
        match compute_expression ops processOp
            (if assoc = "LEFT" then prec + 1 else prec) (nextToken st) with
        | .error e => .error e
        | .ok (rhs, ⟨st2, h2⟩) =>
          match compute_op ops processOp o lhs rhs with
          | .error e => .error e
          | .ok lhs1 =>
            match compute_expr_loop ops processOp minPrec lhs1 st2 with
            | .error e => .error e
            | .ok (v, ⟨st3, h3⟩) =>
              .ok (v, ⟨st3, by
                have h4 := psize_nextToken_lt st (by simp [h])
                omega⟩)
  | _ => .ok (lhs, ⟨st, Nat.le_refl _⟩)
termination_by psize st * 3 + 1
decreasing_by
  all_goals (have h4 := psize_nextToken_lt st (by simp [h]); omega)

/-- `ExpressionParser._compute_expression`: an atom followed by the
operator loop. -/
def compute_expression (ops : OpTable)
    (processOp : String → PyVal → PyVal → PyVal) (minPrec : Nat)
    (st : PState) :
    Except Err (PyVal × {st1 : PState // psize st1 ≤ psize st}) :=
  match compute_atom ops processOp st with
  | .error e => .error e
  | .ok (lhs, ⟨st1, h1⟩) =>
    match compute_expr_loop ops processOp minPrec lhs st1 with
    | .error e => .error e
    | .ok (v, ⟨st2, h2⟩) => .ok (v, ⟨st2, by omega⟩)
termination_by psize st * 3 + 2
decreasing_by
  all_goals omega

end

/-- The `ExpressionParser` object: operator table and callbacks fixed at
construction, plus the `_tokens` / `_cur_token` fields mutated by `parse`. -/
structure ExprParser where
  ops : OpTable
  processValue : String → PyVal
  processOp : String → PyVal → PyVal → PyVal
  tokens : Option (List Tok) := none
  curToken : Option Tok := none

/-- `strip_quotes` (string_parser.py) and the quote stripping in
`_iter_tokens`: a value starting and ending with the same quote character
loses both (Python `s[1:-1]`, which on a single-character string yields the
empty string). -/
def strip_quotes (s : String) : String :=
  let cs := s.toList
  let dq : Char := '"'
  let sq : Char := Char.ofNat 39
  if (cs.head? = some dq ∧ cs.getLast? = some dq) ∨
     (cs.head? = some sq ∧ cs.getLast? = some sq) then
    ((cs.drop 1).dropLast).asString
  else s

/-- `ExpressionParser._iter_tokens`: classify each regex lexeme (the list
stands for the successive `pattern.finditer` matches) into a token. -/
def iter_tokens (ops : OpTable) (processValue : String → PyVal)
    (lexemes : List String) : List Tok :=
  lexemes.map (fun s =>
    if s = "(" then .leftParen
    else if s = ")" then .rightParen
    else if (lookupOp ops s).isSome then .op s
    else .value (processValue (strip_quotes s)))

/-- `ExpressionParser.parse`: assert that no stream is in progress, install
the token stream, pull the first token, compute the expression, and — as
the `finally` clause does — clear both stream fields whether the
computation returned or raised. -/
def parse (p : ExprParser) (lexemes : List String) :
    Except Err PyVal × ExprParser :=
  if p.tokens.isSome then (.error .assertionError, p)
  else
    let toks := iter_tokens p.ops p.processValue lexemes
    let st0 := nextToken ⟨none, toks⟩
    let res : Except Err PyVal :=
      match compute_expression p.ops p.processOp 1 st0 with
      | .error e => .error e
      | .ok (v, _) => .ok v
    (res, { p with tokens := none, curToken := none })

/-! ### Specification-side parser (for refinement)

These definitions are written from the words of the specification (4.3,
precedence climbing) rather than from the code: a plain recursion on the
token list.  Two behaviours of the code are not covered by the
specification words and are amended in: input ending at a missing closing
parenthesis raises `AttributeError` rather than the syntax error, and a
right-parenthesis token where a value is expected yields Python `None`
without being consumed. -/

mutual

/-- Modelled from the spec: parse an atom — a value, or a parenthesized
sub-expression recursively parsed at minimum precedence 1; an operator
where a value is expected, or premature end of input where a value is
expected, is a syntax error (amended cases documented above). -/
def spec_atom (ops : OpTable) (processOp : String → PyVal → PyVal → PyVal) :
    (toks : List Tok) →
    Except Err (PyVal × {ts : List Tok // ts.length ≤ toks.length})
  | [] => .error (.exprParseError "Unexpected end of expression")
  | .op o :: _ =>
    .error (.exprParseError ("Unexpected operator " ++ o ++ " found"))
  | .value v :: ts => .ok (v, ⟨ts, by simp⟩)
  | .rightParen :: ts => .ok (.pyNone, ⟨.rightParen :: ts, Nat.le_refl _⟩)
  | .leftParen :: ts =>
    match spec_expr ops processOp 1 ts with
    | .error e => .error e
    | .ok (v, ⟨ts1, h1⟩) =>
      match ts1 with
      | .rightParen :: ts2 =>
        .ok (v, ⟨ts2, by simp at h1 ⊢; omega⟩)
      | [] => .error (.attributeError "NoneType object has no attribute name")
      | _ => .error (.exprParseError "Unmatched left parenthesis")
termination_by toks => toks.length * 3
decreasing_by
  all_goals simp; omega

/-- Modelled from the spec: while the next token is an operator whose
precedence is at least the current minimum, consume it, parse the right
side at precedence+1 for a left-associative operator and at the same
precedence otherwise, and combine the sides via the operator callback. -/
def spec_loop (ops : OpTable) (processOp : String → PyVal → PyVal → PyVal)
    (minPrec : Nat) (lhs : PyVal) (toks : List Tok) :
    Except Err (PyVal × {ts : List Tok // ts.length ≤ toks.length}) :=
  match toks with
  | .op o :: ts =>
    match lookupOp ops o with
    | none => .error (.keyError o)
    | some (prec, assoc) =>
      if prec < minPrec then .ok (lhs, ⟨.op o :: ts, Nat.le_refl _⟩)
      else
        match spec_expr ops processOp
            (if assoc = "LEFT" then prec + 1 else prec) ts with
        | .error e => .error e
        | .ok (rhs, ⟨ts1, h1⟩) =>
          match compute_op ops processOp o lhs rhs with
          | .error e => .error e
          | .ok lhs1 =>
            match spec_loop ops processOp minPrec lhs1 ts1 with
            | .error e => .error e
            | .ok (v, ⟨ts2, h2⟩) =>
              .ok (v, ⟨ts2, by simp at h1 ⊢; omega⟩)
  | ts => .ok (lhs, ⟨ts, Nat.le_refl _⟩)
termination_by toks.length * 3 + 1
decreasing_by
  · simp; omega
  · have h3 : ts1.length ≤ ts.length := by simpa using h1
    simp; omega

/-- Modelled from the spec: an atom followed by the operator loop. -/
def spec_expr (ops : OpTable) (processOp : String → PyVal → PyVal → PyVal)
    (minPrec : Nat) (toks : List Tok) :
    Except Err (PyVal × {ts : List Tok // ts.length ≤ toks.length}) :=
  match spec_atom ops processOp toks with
  | .error e => .error e
  | .ok (lhs, ⟨ts1, h1⟩) =>
    match spec_loop ops processOp minPrec lhs ts1 with
    | .error e => .error e
    | .ok (v, ⟨ts2, h2⟩) => .ok (v, ⟨ts2, by omega⟩)
termination_by toks.length * 3 + 2
decreasing_by
  all_goals omega

end

/-- The token sequence a parser state stands for: the current token, if
any, followed by the unconsumed rest. -/
def stateToks (st : PState) : List Tok :=
  (match st.cur with
   | some t => [t]
   | none => []) ++ st.rest

/-- A reachable parser state: the current token is only absent at the end
of the stream (`_next_token` never leaves tokens behind a `None` current
token). -/
def WfPState (st : PState) : Prop :=
  st.cur = none → st.rest = []

/-- Forget the code-side state, keeping the token sequence it stands
for. -/
def mapToksC {st : PState}
    (x : Except Err (PyVal × {st1 : PState // psize st1 ≤ psize st})) :
    Except Err (PyVal × List Tok) :=
  match x with
  | .error e => .error e
  | .ok (v, s) => .ok (v, stateToks s.1)

/-- Forget the length bound on the spec-side remaining tokens. -/
def mapToksS {ts : List Tok}
    (x : Except Err (PyVal × {l : List Tok // l.length ≤ ts.length})) :
    Except Err (PyVal × List Tok) :=
  match x with
  | .error e => .error e
  | .ok (v, s) => .ok (v, s.1)

/-- Every state a parser computation can return is reachable. -/
def WfExcept {st : PState}
    (x : Except Err (PyVal × {st1 : PState // psize st1 ≤ psize st})) :
    Prop :=
  ∀ v s, x = .ok (v, s) → WfPState s.1


/-! ## String parser stack machine (cloudpuff/templates/string_parser.py)

The string parser tokenizes a scalar with regexes and drives a stack of
open block scopes.  We embed the stack machine at the event level: each
regex hit becomes an event (a function occurrence with its already-parsed
parameters, a piece of plain content, or a close marker), and the machine
below is the faithful translation of `_handle_func`, `add_content` and
`_handle_func_block_close`.  Python appends a pushed function object to its
parent and mutates the same object while it is open; since the parent
cannot receive other content while a child is on top of it, we append the
finished frame when it is popped, which yields the same contents in the
same order. -/

mutual

/-- A piece of content accumulated in a stack frame: a literal string, an
already-built template value (references, variables), or a function
object. -/
inductive Content where
  | str (s : String)
  | val (v : PyVal)
  | fn (f : FuncObj)

/-- A string-parser stack item: the base `StringParserStackItem`, a generic
`BlockFunction`, an `IfBlockFunction` (with its true/false sections,
`_is_elseif` flag and `_cur_content` selector), or an
`ElseBlockFunction`. -/
inductive FuncObj where
  | plainItem (contents : List Content) (popCount : Nat)
  | blockFn (name : String) (params : List PyVal) (contents : List Content)
      (popCount : Nat)
  | ifBlockFn (name : String) (params : List PyVal) (isElseif : Bool)
      (trueC : List Content) (falseC : List Content) (curFalse : Bool)
      (popCount : Nat)
  | elseFn (name : String) (params : List PyVal) (contents : List Content)
      (popCount : Nat)

end

/-- `func_name` of a function object (`None` for the base item). -/
def funcName : FuncObj → Option String
  | .plainItem .. => none
  | .blockFn n .. => some n
  | .ifBlockFn n .. => some n
  | .elseFn n .. => some n

/-- `pop_count` of a stack item. -/
def popCountOf : FuncObj → Nat
  | .plainItem _ pc => pc
  | .blockFn _ _ _ pc => pc
  | .ifBlockFn _ _ _ _ _ _ pc => pc
  | .elseFn _ _ _ pc => pc

/-- `isinstance(content, Function)`. -/
def isFunction : Content → Bool
  | .fn _ => true
  | _ => false

/-- `StringParser.FUNCTIONS` restricted to the stack machine: `If` and
`ElseIf` build an `IfBlockFunction`, `Else` an `ElseBlockFunction`, any
other name the default `BlockFunction`.  (The non-block wrappers Base64,
GetAZs and friends are modelled separately where their parameter parsing
matters.) -/
def mkFuncObj (name : String) (params : List PyVal) : FuncObj :=
  if name = "If" ∨ name = "ElseIf" then
    .ifBlockFn name params false [] [] false 1
  else if name = "Else" then .elseFn name params [] 1
  else .blockFn name params [] 1

/-- `Function.validate` / `IfBlockFunction.validate` /
`ElseBlockFunction.validate` against the current stack.  A fresh `ElseIf`
has `_is_elseif = False`, so its validate never fires (the flag is set only
later, by the parent's `add_content`); `Else` requires the current item to
be an `IfBlockFunction`. -/
def validateFunc (f : FuncObj) (stack : List FuncObj) : Except Err Unit :=
  match f with
  | .ifBlockFn _ _ isElseif _ _ _ _ =>
    if isElseif then
      match stack.head? with
      | some (.ifBlockFn ..) => .ok ()
      | some _ =>
        .error (.constructorError "Found ElseIf without a matching If or ElseIf")
      | none => .error .indexError
    else .ok ()
  | .elseFn .. =>
    match stack.head? with
    | some (.ifBlockFn ..) => .ok ()
    | some _ => .error (.constructorError "Found Else without a matching If")
    | none => .error .indexError
  | _ => .ok ()

/-- The ElseIf rewrite in `IfBlockFunction.add_content`: the content
simulates an `If` (`func_name = 'If'`), owes one extra close marker
(`pop_count = parent pop_count + 1`) and is marked `_is_elseif`. -/
def renameElseif : FuncObj → Nat → FuncObj
  | .ifBlockFn _ params _ t f cf _, newPc => .ifBlockFn "If" params true t f cf newPc
  | g, _ => g

/-- Append content to a frame (the final `self._cur_content.append` /
`self.contents.append`): an `IfBlockFunction` appends to its true or false
section depending on `_cur_content`. -/
def appendContent (frame : FuncObj) (c : Content) : FuncObj :=
  match frame with
  | .plainItem contents pc => .plainItem (contents ++ [c]) pc
  | .blockFn n params contents pc => .blockFn n params (contents ++ [c]) pc
  | .elseFn n params contents pc => .elseFn n params (contents ++ [c]) pc
  | .ifBlockFn n params isE trueC falseC curFalse pc =>
    if curFalse then .ifBlockFn n params isE trueC (falseC ++ [c]) curFalse pc
    else .ifBlockFn n params isE (trueC ++ [c]) falseC curFalse pc

/-- The checks and side effects of `add_content` before the final append:
on an `IfBlockFunction` receiving an `Else`/`ElseIf` block function, demand
a non-empty true section and an empty false section, switch `_cur_content`
to the false section, and return `can_push = False` for `Else` or the
renamed content for `ElseIf`.  Returns (updated frame, content to append,
`can_push`, whether the content is appended at all — only `Else` is not).
The append itself is done by the caller (now, or at pop time for a pushed
block). -/
def addContentCheck (frame : FuncObj) (c : Content) :
    Except Err (FuncObj × Content × Bool × Bool) :=
  match frame with
  | .ifBlockFn name params isE trueC falseC curFalse pc =>
    match c with
    | .fn g =>
      if funcName g = some "Else" ∨ funcName g = some "ElseIf" then
        if trueC.isEmpty then
          .error (.constructorError
            "Found Else or ElseIf without a true value in the If")
        else if !falseC.isEmpty then
          .error (.constructorError "Found Else or ElseIf after an Else")
        else if funcName g = some "Else" then
          .ok (.ifBlockFn name params isE trueC falseC true pc, c, false, false)
        else
          .ok (.ifBlockFn name params isE trueC falseC true pc,
               .fn (renameElseif g (pc + 1)), true, true)
      else .ok (frame, c, isFunction c, true)
    | _ => .ok (frame, c, isFunction c, true)
  | _ => .ok (frame, c, isFunction c, true)

/-- `StringParser._handle_func`: build the function object with its parsed
parameters, validate it, add it to the current frame, and push it when it
can be pushed and carries an open-block marker. -/
def handle_func (stack : List FuncObj) (name : String) (params : List PyVal)
    (hasOpen : Bool) : Except Err (List FuncObj) := do
  let f := mkFuncObj name params
  let _ ← validateFunc f stack
  match stack with
  | [] => .error .indexError
  | top :: rest => do
    let (top1, c1, canPush, shouldStore) ← addContentCheck top (.fn f)
    if canPush ∧ hasOpen then
      match c1 with
      | .fn g => .ok (g :: top1 :: rest)
      | _ => .error .indexError
    else
      .ok ((if shouldStore then appendContent top1 c1 else top1) :: rest)

/-- Plain content (literal text, references, variables) added to the
current frame. -/
def handle_content (stack : List FuncObj) (c : Content) :
    Except Err (List FuncObj) :=
  match stack with
  | [] => .error .indexError
  | top :: rest => do
    let (top1, c1, _, shouldStore) ← addContentCheck top c
    .ok ((if shouldStore then appendContent top1 c1 else top1) :: rest)

/-- Pop `n` frames, folding each finished frame into its parent (see the
aliasing note above).  Popping the last frame discards it, as Python's
`stack.pop()` does. -/
def popFrames : Nat → List FuncObj → Except Err (List FuncObj)
  | 0, stack => .ok stack
  | n + 1, stack =>
    match stack with
    | top :: parent :: rest =>
      popFrames n (appendContent parent (.fn top) :: rest)
    | [_] => popFrames n []
    | [] => .error .indexError

/-- `StringParser._handle_func_block_close`: pop the current item's
`pop_count` frames. -/
def handle_close (stack : List FuncObj) : Except Err (List FuncObj) :=
  match stack with
  | [] => .error .indexError
  | top :: _ => popFrames (popCountOf top) stack

/-- A parse event: one regex hit in `_parse_line`. -/
inductive PEvent where
  | func (name : String) (params : List PyVal) (hasOpen : Bool)
  | content (c : Content)
  | closeBlock

/-- Run the stack machine over the events of a scalar. -/
def run_events : List PEvent → List FuncObj → Except Err (List FuncObj)
  | [], stack => .ok stack
  | e :: rest, stack => do
    let stack1 ←
      match e with
      | .func name params hasOpen => handle_func stack name params hasOpen
      | .content c => handle_content stack c
      | .closeBlock => handle_close stack
    run_events rest stack1

/-- Helper loop of `TemplateState.normalize_vars_list` (cloudpuff): scan for
`VarReference` members; any member that is neither a string nor a variable
reference leaves the list untagged. -/
def normalize_vars_list_go (l : List PyVal) : List PyVal → Bool → PyVal
  | [], hasVars => if hasVars then .list .varsStrings l else .list .plain l
  | item :: rest, hasVars =>
    match item with
    | .varRef _ _ => normalize_vars_list_go l rest true
    | .str _ => normalize_vars_list_go l rest hasVars
    | _ => .list .plain l

/-- `TemplateState.normalize_vars_list` (cloudpuff): tag a list as
`VarsStringsList` exactly when it holds at least one `VarReference` and
otherwise only strings. -/
def normalize_vars_list (l : List PyVal) : PyVal :=
  normalize_vars_list_go l l false

/-- The list post-processing of `StringParserStackItem.normalize_content`:
run `process_tree` over the plain list with variable resolution off (and
the template state's own variables as scope), tag via
`normalize_vars_list`, then unwrap a single element, or wrap several in an
`Fn::Join` unless the list is a `VarsStringsList`. -/
def postProcessList (ptFuel : Nat) (st : TState) (items : List PyVal) :
    Except Err (PyVal × TState) := do
  let (v1, st1) ← process_tree ptFuel st (.list .plain items) st.vars false false
  match v1 with
  | .list .plain value =>
    match normalize_vars_list value with
    | .list kind l1 =>
      match l1, kind with
      | [x], _ => .ok (x, st1)
      | [], _ => .ok (.list kind [], st1)
      | _, .varsStrings => .ok (.list .varsStrings l1, st1)
      | _, _ =>
        .ok (.dict [(.str "Fn::Join", .list .plain [.str "", .list kind l1])],
             st1)
    | _ => .error .typeError
  | _ => .error .typeError

/-- `normalize_content` restricted to plain template values: lists are
normalized elementwise and post-processed, everything else passes
through.  (Serialized stack items re-enter `normalize_content` as plain
values, which is why this runs on `PyVal`.) -/
def normalizePyVal : Nat → TState → PyVal → Except Err (PyVal × TState)
  | 0, _, _ => .error .recursionError
  | fuel + 1, st, v =>
    match v with
    | .list _ items => do
      let (items1, st1) ← items.foldlM
        (fun acc item => do
          let (x, s1) ← normalizePyVal fuel acc.2 item
          .ok (acc.1 ++ [x], s1))
        (([] : List PyVal), st)
      postProcessList fuel st1 items1
    | other => .ok (other, st)

/-- The inputs of the mutually recursive serialization walk:
`normalize_content` on one content, `normalize_content` on a content list,
or `serialize` on a stack item. -/
inductive NormIn where
  | one (c : Content)
  | many (cs : List Content)
  | item (f : FuncObj)

/-- The serialization walk of string_parser.py: `normalize_content`,
`normalize_function_contents` and the `serialize` methods, fused into one
fuel-indexed function (fuel models the Python recursion depth).

* `one`: `normalize_content(c)` — stack items are serialized first; a
  resulting (or plain) list is normalized elementwise and post-processed.
* `many`: `normalize_content` applied to a Python list of contents.
* `item`: `serialize()` — the base item maps `normalize_content` over its
  contents and yields a plain list; a `BlockFunction` yields
  `{Fn::name: UncollapsibleList(params + normalized contents)}`; an
  `IfBlockFunction` yields `Fn::If` with the serialized condition parameter
  and exactly the two normalized branches, an absent false branch becoming
  `{Ref: AWS::NoValue}` (`IfBlockFunction.normalize_function_contents`). -/
def normalizeAny : Nat → TState → NormIn → Except Err (PyVal × TState)
  | 0, _, _ => .error .recursionError
  | fuel + 1, st, inp =>
    match inp with
    | .one c =>
      match c with
      | .str s => .ok (.str s, st)
      | .val v => normalizePyVal (fuel + 1) st v
      | .fn f => do
        let (v, st1) ← normalizeAny fuel st (.item f)
        normalizePyVal fuel st1 v
    | .many cs => do
      let (items1, st1) ← cs.foldlM
        (fun acc c => do
          let (x, s1) ← normalizeAny fuel acc.2 (.one c)
          .ok (acc.1 ++ [x], s1))
        (([] : List PyVal), st)
      postProcessList fuel st1 items1
    | .item f =>
      match f with
      | .plainItem contents _ => do
        let (items1, st1) ← contents.foldlM
          (fun acc c => do
            let (x, s1) ← normalizeAny fuel acc.2 (.one c)
            .ok (acc.1 ++ [x], s1))
          (([] : List PyVal), st)
        .ok (.list .plain items1, st1)
      | .blockFn name params contents _ => do
        let (items1, st1) ← contents.foldlM
          (fun acc c => do
            let (x, s1) ← normalizeAny fuel acc.2 (.one c)
            .ok (acc.1 ++ [x], s1))
          (([] : List PyVal), st)
        .ok (.dict [(.str ("Fn::" ++ name),
                     .list .uncollapsible (params ++ items1))], st1)
      | .elseFn name params contents _ => do
        let (items1, st1) ← contents.foldlM
          (fun acc c => do
            let (x, s1) ← normalizeAny fuel acc.2 (.one c)
            .ok (acc.1 ++ [x], s1))
          (([] : List PyVal), st)
        .ok (.dict [(.str ("Fn::" ++ name),
                     .list .uncollapsible (params ++ items1))], st1)
      | .ifBlockFn _ params _ trueC falseC _ _ => do
        let (t1, st1) ← normalizeAny fuel st (.many trueC)
        let (f1, st2) ← normalizeAny fuel st1 (.many falseC)
        let f2 := if pyFalsy f1 then
            PyVal.dict [(.str "Ref", .str "AWS::NoValue")]
          else f1
        match params with
        | [p] =>
          match p with
          | .dict d =>
            .ok (.dict [(.str "Fn::If",
                         .list .uncollapsible [.ifCond (.dict d), t1, f2])], st2)
          | .str s =>
            .ok (.dict [(.str "Fn::If",
                         .list .uncollapsible [.str s, t1, f2])], st2)
          | _ => .error (.constructorError "Invalid parameter to If")
        | _ => .error .assertionError

/-- `StringParser.parse_string`, after the line loop: reject an unbalanced
stack, then `normalize_content(cur_stack)` on the single remaining base
item. -/
def parse_events (ptFuel : Nat) (st : TState) (events : List PEvent) :
    Except Err (PyVal × TState) := do
  let stack1 ← run_events events [FuncObj.plainItem [] 1]
  match stack1 with
  | [cur] => normalizeAny ptFuel st (.one (.fn cur))
  | [] => .error .indexError
  | _ => .error (.constructorError "Unbalanced braces in template")


/-! ## Function parameter parsing (string_parser.py) and tag resolution
(compiler.py) -/

/-- ASCII whitespace matched by the regex class `\s` (Python 2 `str`). -/
def isSpaceChar (c : Char) : Bool :=
  c = ' ' ∨ c = Char.ofNat 9 ∨ c = Char.ofNat 10 ∨ c = Char.ofNat 13 ∨
  c = Char.ofNat 11 ∨ c = Char.ofNat 12

/-- `re.split(',\s*', s)` at the character level: a comma together with the
whitespace run following it separates the parts.  The `skipping` flag is set
right after a comma while its trailing whitespace is being consumed. -/
def splitParamsGo : List Char → List Char → Bool → List String
  | [], cur, _ => [cur.reverse.asString]
  | ch :: rest, cur, skipping =>
    if skipping ∧ isSpaceChar ch then splitParamsGo rest cur true
    else if ch = ',' then
      cur.reverse.asString :: splitParamsGo rest [] true
    else splitParamsGo rest (ch :: cur) false

/-- `Function.PARAMS_RE.split(params_str)`. -/
def splitParams (s : String) : List String :=
  splitParamsGo s.toList [] false

/-- `Function.parse_params`: an empty (or absent) parameter text yields no
parameters; otherwise split on commas, strip quotes, and process each value
as a templated string. -/
def function_parse_params (paramsStr : String)
    (processString : String → PyVal) : List PyVal :=
  if paramsStr = "" then []
  else (splitParams paramsStr).map (fun v => processString (strip_quotes v))

/-- `Base64Function.parse_params`: Base64 takes a single positional
argument; more than one is an error, exactly one is returned alone, and
none yields the empty string. -/
def base64_parse_params (paramsStr : String)
    (processString : String → PyVal) : Except Err PyVal :=
  let params := function_parse_params paramsStr processString
  if params.length > 1 then
    .error (.constructorError "Too many parameters passed to Base64")
  else
    match params with
    | [p] => .ok p
    | _ => .ok (.str "")

/-- `GetAZsFunction.parse_params`: same single-argument convention as
Base64. -/
def getazs_parse_params (paramsStr : String)
    (processString : String → PyVal) : Except Err PyVal :=
  let params := function_parse_params paramsStr processString
  if params.length > 1 then
    .error (.constructorError "Too many parameters passed to GetAZs")
  else
    match params with
    | [p] => .ok p
    | _ => .ok (.str "")

/-- `TemplateCompiler.get_tags(params)` (cloudpuff/templates/compiler.py).
`meta` is the template's Meta mapping; `params` the (key, value) parameter
list, folded into a dict exactly as `dict(params)` is.  The result mapping
starts from `GenericStackName` (and `StackVersion` when a version is
declared); each declared tag whose value is a dict with a `Ref` is resolved
through the parameter dict (`KeyError` on a miss), and any value that is
not a string at that point raises `InvalidTagError`.  The loop body of
`get_tags` is factored out here as `get_tags_step`. -/
def get_tags_step (paramsD : List (String × PyVal))
    (acc : List (PyVal × PyVal)) (kv : PyVal × PyVal) :
    Except Err (List (PyVal × PyVal)) := do
  let v1 ← match kv.2 with
    | .dict inner =>
      match inner.find? (fun p => p.1 == PyVal.str "Ref") with
      | some refPair =>
        match refPair.2 with
        | .str r =>
          match dictGet paramsD r with
          | some pv => .ok pv
          | none => .error (.keyError r)
        | _ => .error .typeError
      | none => .ok kv.2
    | _ => .ok kv.2
  if isStr v1 then .ok (odictInsert acc kv.1 v1)
  else .error .invalidTagError

def get_tags (meta : List (String × PyVal)) (params : List (String × PyVal)) :
    Except Err (List (PyVal × PyVal)) := do
  let paramsD := params.foldl (fun acc p => dictSet acc p.1 p.2) []
  let nameV ← match dictGet meta "Name" with
    | some v => .ok v
    | none => .error (.keyError "Name")
  let tags0 : List (PyVal × PyVal) := [(.str "GenericStackName", nameV)]
  let tags1 := match dictGet meta "Version" with
    | some ver => odictInsert tags0 (.str "StackVersion") ver
    | none => tags0
  match dictGet meta "Tags" with
  | none => .ok tags1
  | some (.dict pairs) =>
    pairs.foldlM (get_tags_step paramsD) tags1
  | some _ => .error (.attributeError "items")

/-! ## Predicates used by the theorems -/

/-- Two adjacent plain-string items occur somewhere in the list. -/
def adjacentStrs : List PyVal → Bool
  | .str _ :: .str _ :: _ => true
  | _ :: rest => adjacentStrs rest
  | [] => false

/-- The condition table carries exactly the names `IfCondition1`,
`IfCondition2`, … in order (so every materialized name is the next
sequential 1-based one and no name is ever reused). -/
def namesSequential (tbl : List (String × PyVal)) : Prop :=
  tbl.map Prod.fst =
    (List.range tbl.length).map (fun i => "IfCondition" ++ toString (i + 1))

/-- A tag entry that resolves cleanly against the parameter dict: a string,
or a `Ref` dict whose referenced parameter exists and is a string. -/
def goodTag (paramsD : List (String × PyVal)) (kv : PyVal × PyVal) : Prop :=
  (∃ s, kv.2 = PyVal.str s) ∨
  (∃ inner r pv,
    kv.2 = PyVal.dict inner ∧
    inner.find? (fun p => p.1 == PyVal.str "Ref") = some (PyVal.str "Ref", .str r) ∧
    dictGet paramsD r = some (PyVal.str pv))


/-- The numeric value of a decimal digit character (10 for other
characters); used to prove decimal renderings injective. -/
def decDigitVal (c : Char) : Nat :=
  if c = '0' then 0 else if c = '1' then 1 else if c = '2' then 2
  else if c = '3' then 3 else if c = '4' then 4 else if c = '5' then 5
  else if c = '6' then 6 else if c = '7' then 7 else if c = '8' then 8
  else if c = '9' then 9 else 10

/-- The value of a most-significant-first decimal digit string. -/
def decVal (cs : List Char) : Nat :=
  cs.foldl (fun acc c => acc * 10 + decDigitVal c) 0

/-! # Theorems -/

theorem setEqNat_refl (l : List Nat) : setEqNat l l = true := by
  simp [setEqNat, List.all_eq_true]

theorem prevDiffers_self (l : List Nat) : prevDiffers (some l) l = false := by
  simp [prevDiffers, setEqNat_refl]

/-- The fixed-point loop always exits after a single `process_tree` pass:
the snapshot taken at the end of the pass is the very set compared at the
next check, so the second check always finds them equal. -/
theorem resolve_variables_one_pass (ptFuel bound : Nat) (st : TState)
    (doc : PyVal) (h : 2 ≤ bound) :
    resolve_variables ptFuel bound st doc =
      process_tree_cf ptFuel st doc (asVarsDict doc) true := by
  obtain ⟨b, rfl⟩ : ∃ b, bound = b + 2 := ⟨bound - 2, by omega⟩
  show resolve_variables_loop ptFuel (b + 1 + 1) none st doc = _
  simp only [resolve_variables_loop, prevDiffers]
  cases h1 : process_tree_cf ptFuel st doc (asVarsDict doc) true with
  | error e => rfl
  | ok p =>
    simp [resolve_variables_loop, setEqNat_refl]


/-- C1 counterexample: a variables document in which every referenced
variable is transitively defined (`var2` refers to `var1`, both declared in
the document) and which resolves completely, yet after the fixed-point loop
the pending-unresolved set still holds the id of the document's reference:
the reference was resolved inside `collapse_variables`, which never
discards pending entries.  So the loop does not leave the pending set free
of the document's references. -/
theorem c1_pending_set_counterexample :
    (resolve_variables 20 5 ⟨[], [], [1], []⟩
        (.dict [(.str "var1", .str "value1"),
                (.str "var2", .list .varsStrings [.varRef 1 "var1", .str "-foo"])]) =
      .ok (.dict [(.str "var1", .str "value1"),
                  (.str "var2", .str "value1-foo")],
           ⟨[], [], [1], []⟩)) ∧
    ([1] : List Nat) ≠ [] :=
  ⟨rfl, by decide⟩

/-- C1 (amended): the fixed-point resolution loop always terminates — it
runs exactly one `process_tree` pass with the document as its own scope,
because the snapshot taken after the pass always equals the set at the next
check (in particular a pass that makes no progress still exits) — and that
single pass resolves every transitively defined reference regardless of
declaration order (shown here on the `var3` → `var2` → `var1` chain
declared in reverse order); however, entries of the pending-unresolved set
for references resolved inside collapsed lists are not discarded, so the
set need not end empty. -/
theorem c1_fixed_point_amended :
    (∀ ptFuel bound st doc, 2 ≤ bound →
      resolve_variables ptFuel bound st doc =
        process_tree_cf ptFuel st doc (asVarsDict doc) true) ∧
    (resolve_variables 20 5 ⟨[], [], [1, 2], []⟩
        (.dict [(.str "var3", .list .varsStrings [.varRef 1 "var2", .str "bar"]),
                (.str "var2", .list .varsStrings [.varRef 2 "var1", .str "-foo"]),
                (.str "var1", .str "value1")]) =
      .ok (.dict [(.str "var3", .str "value1-foobar"),
                  (.str "var2", .str "value1-foo"),
                  (.str "var1", .str "value1")],
           ⟨[], [], [1, 2], []⟩)) :=
  ⟨fun ptFuel bound st doc h => resolve_variables_one_pass ptFuel bound st doc h,
   rfl⟩

/-- C1 witness: the amended loop theorem applied at a concrete document and
bound, with the bound hypothesis discharged. -/
theorem c1_fixed_point_amended_witness :
    2 ≤ 2 ∧
    resolve_variables 7 2 ⟨[], [], [], []⟩ (.str "v") =
      process_tree_cf 7 ⟨[], [], [], []⟩ (.str "v")
        (asVarsDict (.str "v")) true :=
  ⟨by norm_num,
   c1_fixed_point_amended.1 7 2 ⟨[], [], [], []⟩ (.str "v") (by norm_num)⟩


theorem adjacentStrs_cons_cons (x y : PyVal) (rest : List PyVal) :
    adjacentStrs (x :: y :: rest) =
      (isStr x && isStr y || adjacentStrs (y :: rest)) := by
  cases x <;> cases y <;> simp [adjacentStrs, isStr]

theorem adjacentStrs_tail (x : PyVal) (l : List PyVal)
    (h : adjacentStrs (x :: l) = false) : adjacentStrs l = false := by
  cases l with
  | nil => rfl
  | cons y ys =>
    rw [adjacentStrs_cons_cons] at h
    exact (Bool.or_eq_false_iff.mp h).2

theorem adjacentStrs_append_nonstr (l : List PyVal) (v : PyVal)
    (hl : adjacentStrs l = false) (hv : isStr v = false) :
    adjacentStrs (l ++ [v]) = false := by
  induction l with
  | nil => simp [adjacentStrs, hv]
  | cons x xs ih =>
    cases xs with
    | nil => simp [adjacentStrs_cons_cons, hv, adjacentStrs]
    | cons y ys =>
      rw [adjacentStrs_cons_cons] at hl
      obtain ⟨h1, h2⟩ := Bool.or_eq_false_iff.mp hl
      have h3 := ih h2
      rw [List.cons_append] at h3
      rw [List.cons_append, List.cons_append, adjacentStrs_cons_cons, h3, h1]
      rfl

theorem adjacentStrs_append_str (l : List PyVal) (s : String)
    (hl : adjacentStrs l = false)
    (hlast : ∀ t, l.getLast? ≠ some (PyVal.str t)) :
    adjacentStrs (l ++ [.str s]) = false := by
  induction l with
  | nil => simp [adjacentStrs]
  | cons x xs ih =>
    cases xs with
    | nil =>
      simp only [List.getLast?_singleton] at hlast
      rw [List.cons_append, List.nil_append, adjacentStrs_cons_cons]
      cases x with
      | str t => exact absurd rfl (hlast t)
      | _ => simp [isStr, adjacentStrs]
    | cons y ys =>
      rw [adjacentStrs_cons_cons] at hl
      obtain ⟨h1, h2⟩ := Bool.or_eq_false_iff.mp hl
      have hlast2 : ∀ t, (y :: ys).getLast? ≠ some (PyVal.str t) := by
        intro t
        rw [List.getLast?_cons_cons] at hlast
        exact hlast t
      have h3 := ih h2 hlast2
      rw [List.cons_append] at h3
      rw [List.cons_append, List.cons_append, adjacentStrs_cons_cons, h3, h1]
      rfl

theorem adjacentStrs_merge (l : List PyVal) (t u : String)
    (hl : adjacentStrs l = false)
    (hlast : l.getLast? = some (PyVal.str t)) :
    adjacentStrs (l.dropLast ++ [.str u]) = false := by
  induction l with
  | nil => simp at hlast
  | cons x xs ih =>
    cases xs with
    | nil => simp [adjacentStrs]
    | cons y ys =>
      rw [adjacentStrs_cons_cons] at hl
      obtain ⟨h1, h2⟩ := Bool.or_eq_false_iff.mp hl
      rw [List.getLast?_cons_cons] at hlast
      have step := ih h2 hlast
      rw [List.dropLast_cons_of_ne_nil (by simp), List.cons_append]
      cases hys : ys with
      | nil =>
        subst hys
        simp only [List.dropLast_single, List.nil_append] at step ⊢
        rw [adjacentStrs_cons_cons]
        have hy : isStr y = true := by
          simp at hlast
          rw [hlast]
          rfl
        have hx : isStr x = false := by
          cases hxs : isStr x
          · rfl
          · rw [hxs, hy] at h1; simp at h1
        simp [hx, adjacentStrs]
      | cons z zs =>
        subst hys
        rw [List.dropLast_cons_of_ne_nil (by simp)] at step ⊢
        rw [List.cons_append] at step ⊢
        rw [adjacentStrs_cons_cons]
        simp [h1, step]

theorem mergeLast_inv (result : List PyVal) (s : String) (m : List PyVal)
    (h : mergeLast result s = .ok m) :
    ∃ t, result.getLast? = some (PyVal.str t) ∧
      m = result.dropLast ++ [.str (t ++ s)] := by
  unfold mergeLast at h
  cases hlast : result.getLast? with
  | none => rw [hlast] at h; exact absurd h (by simp)
  | some v =>
    rw [hlast] at h
    cases v with
    | str t =>
      refine ⟨t, rfl, ?_⟩
      simpa using h.symm
    | _ => simp_all


theorem adjacentStrs_single (x : PyVal) : adjacentStrs [x] = false := by
  cases x <;> rfl

theorem ends_nonstr (result : List PyVal) (w : PyVal) (hw : isStr w = false) :
    ¬ ∃ t, (result ++ [w]).getLast? = some (PyVal.str t) := by
  rintro ⟨t, ht⟩
  rw [List.getLast?_concat] at ht
  cases w <;> simp_all [isStr]

theorem no_lit_str_head (s : String) (rest : List PyVal)
    (h : adjacentStrs (PyVal.str s :: rest) = false) :
    ∀ s2 rest2, rest ≠ PyVal.str s2 :: rest2 := by
  intro s2 rest2 heq
  subst heq
  simp [adjacentStrs] at h


/-- The invariant of the collapsing loop: with folding enabled, if neither
the remaining items nor the accumulated result contain two adjacent plain
strings, and a result ending in a string with the fold flag off implies the
next item is not a literal string, then a successful run yields no two
adjacent plain strings. -/
theorem collapse_go_no_adjacent (vars : List (String × PyVal)) :
    ∀ (items result : List PyVal) (collapseS : Bool) (st st1 : TState)
      (res : List PyVal),
      adjacentStrs items = false →
      adjacentStrs result = false →
      (collapseS = false →
        (∃ t, result.getLast? = some (PyVal.str t)) →
        ∀ s rest2, items ≠ PyVal.str s :: rest2) →
      collapse_variables_go true vars items result collapseS st =
        .ok (res, st1) →
      adjacentStrs res = false := by
  intro items
  induction items with
  | nil =>
    intro result collapseS st st1 res hItems hRes hBlock hgo
    simp only [collapse_variables_go] at hgo
    obtain ⟨h1, h2⟩ := by simpa using hgo
    subst h1
    exact hRes
  | cons item0 rest ih =>
    intro result collapseS st st1 res hItems hRes hBlock hgo
    have hRest : adjacentStrs rest = false := adjacentStrs_tail _ _ hItems
    cases item0 with
    | varRef id name =>
      simp only [collapse_variables_go] at hgo
      cases hr : resolve name vars with
      | ok v =>
        rw [hr] at hgo
        dsimp only at hgo
        cases v with
        | str s =>
          dsimp only at hgo
          simp only [true_and] at hgo
          by_cases hres : result = []
          · subst hres
            rw [if_neg (by simp)] at hgo
            refine ih _ true st st1 res hRest ?_ ?_ hgo
            · simpa using adjacentStrs_single (PyVal.str s)
            · exact fun hfalse _ => by cases hfalse
          · rw [if_pos (by simpa using hres)] at hgo
            cases hm : mergeLast result s with
            | error e => rw [hm] at hgo; exact (Except.noConfusion hgo)
            | ok merged =>
              rw [hm] at hgo
              obtain ⟨t, hlast, hshape⟩ := mergeLast_inv result s merged hm
              subst hshape
              refine ih _ true st st1 res hRest ?_ ?_ hgo
              · exact adjacentStrs_merge result t (t ++ s) hRes hlast
              · exact fun hfalse _ => by cases hfalse
        | pyNone =>
          refine ih _ false st st1 res hRest ?_ ?_ hgo
          · exact adjacentStrs_append_nonstr _ _ hRes (by rfl)
          · exact fun _ hex _ _ _ => absurd hex (ends_nonstr _ _ (by rfl))
        | varRef id2 n2 =>
          refine ih _ false st st1 res hRest ?_ ?_ hgo
          · exact adjacentStrs_append_nonstr _ _ hRes (by rfl)
          · exact fun _ hex _ _ _ => absurd hex (ends_nonstr _ _ (by rfl))
        | ifCond c =>
          refine ih _ false st st1 res hRest ?_ ?_ hgo
          · exact adjacentStrs_append_nonstr _ _ hRes (by rfl)
          · exact fun _ hex _ _ _ => absurd hex (ends_nonstr _ _ (by rfl))
        | list k l =>
          refine ih _ false st st1 res hRest ?_ ?_ hgo
          · exact adjacentStrs_append_nonstr _ _ hRes (by rfl)
          · exact fun _ hex _ _ _ => absurd hex (ends_nonstr _ _ (by rfl))
        | dict d =>
          refine ih _ false st st1 res hRest ?_ ?_ hgo
          · exact adjacentStrs_append_nonstr _ _ hRes (by rfl)
          · exact fun _ hex _ _ _ => absurd hex (ends_nonstr _ _ (by rfl))
      | error e =>
        rw [hr] at hgo
        cases e with
        | keyError m =>
          dsimp only at hgo
          refine ih _ false _ st1 res hRest ?_ ?_ hgo
          · exact adjacentStrs_append_nonstr _ _ hRes (by rfl)
          · exact fun _ hex _ _ _ => absurd hex (ends_nonstr _ _ (by rfl))
        | typeError => exact (by simpa using hgo)
        | attributeError m => exact (by simpa using hgo)
        | constructorError m => exact (by simpa using hgo)
        | exprParseError m => exact (by simpa using hgo)
        | invalidTagError => exact (by simpa using hgo)
        | assertionError => exact (by simpa using hgo)
        | indexError => exact (by simpa using hgo)
        | recursionError => exact (by simpa using hgo)
    | str s =>
      simp only [collapse_variables_go] at hgo
      by_cases hcs : collapseS = true ∧ result ≠ []
      · rw [if_pos (by simpa using hcs)] at hgo
        cases hm : mergeLast result s with
        | error e => rw [hm] at hgo; exact (Except.noConfusion hgo)
        | ok merged =>
          rw [hm] at hgo
          obtain ⟨t, hlast, hshape⟩ := mergeLast_inv result s merged hm
          subst hshape
          refine ih _ false st st1 res hRest ?_ ?_ hgo
          · exact adjacentStrs_merge result t (t ++ s) hRes hlast
          · exact fun _ _ => no_lit_str_head s rest hItems
      · rw [if_neg (by simpa using hcs)] at hgo
        by_cases hres : result = []
        · subst hres
          refine ih _ false st st1 res hRest ?_ ?_ hgo
          · simpa using adjacentStrs_single (PyVal.str s)
          · exact fun _ _ => no_lit_str_head s rest hItems
        · have hcsf : collapseS = false := by
            cases hcsb : collapseS
            · rfl
            · exact absurd ⟨hcsb, hres⟩ hcs
          have hnostr : ∀ t, result.getLast? ≠ some (PyVal.str t) := by
            intro t ht
            exact hBlock hcsf ⟨t, ht⟩ s rest rfl
          refine ih _ false st st1 res hRest ?_ ?_ hgo
          · exact adjacentStrs_append_str result s hRes hnostr
          · exact fun _ _ => no_lit_str_head s rest hItems
    | pyNone =>
      simp only [collapse_variables_go] at hgo
      refine ih _ false st st1 res hRest ?_ ?_ hgo
      · exact adjacentStrs_append_nonstr _ _ hRes (by rfl)
      · exact fun _ hex _ _ _ => absurd hex (ends_nonstr _ _ (by rfl))
    | ifCond c =>
      simp only [collapse_variables_go] at hgo
      refine ih _ false st st1 res hRest ?_ ?_ hgo
      · exact adjacentStrs_append_nonstr _ _ hRes (by rfl)
      · exact fun _ hex _ _ _ => absurd hex (ends_nonstr _ _ (by rfl))
    | list k l =>
      simp only [collapse_variables_go] at hgo
      refine ih _ false st st1 res hRest ?_ ?_ hgo
      · exact adjacentStrs_append_nonstr _ _ hRes (by rfl)
      · exact fun _ hex _ _ _ => absurd hex (ends_nonstr _ _ (by rfl))
    | dict d =>
      simp only [collapse_variables_go] at hgo
      refine ih _ false st st1 res hRest ?_ ?_ hgo
      · exact adjacentStrs_append_nonstr _ _ hRes (by rfl)
      · exact fun _ hex _ _ _ => absurd hex (ends_nonstr _ _ (by rfl))


/-- C5 counterexample: a plain sequence whose items are already two plain
strings passes through the collapsing pass (and the compiler's
`process_tree` around it) unchanged — the output still contains two
adjacent plain-string items, even though every variable (there are none) is
resolved. -/
theorem c5_counterexample :
    (collapse_variables ⟨[], [], [], []⟩ .plain [.str "a", .str "b"] [] =
      .ok ([.str "a", .str "b"], ⟨[], [], [], []⟩)) ∧
    (process_tree 20 ⟨[], [], [], []⟩ (.list .plain [.str "a", .str "b"]) []
        true false =
      .ok (.list .plain [.str "a", .str "b"], ⟨[], [], [], []⟩)) ∧
    adjacentStrs [.str "a", .str "b"] = true :=
  ⟨rfl, rfl, rfl⟩

/-- C5 (amended): for every sequence that is not tagged uncollapsible and
whose items do not already contain two adjacent plain strings (as holds for
the alternating literal/reference lists the string tokenizer produces), a
successful collapsing pass yields a list with no two adjacent plain-string
items; an uncollapsible sequence, or one with pre-existing adjacent
strings, may retain them. -/
theorem c5_collapse_no_adjacent :
    ∀ (st : TState) (kind : ListKind) (items : List PyVal)
      (vars : List (String × PyVal)) (res : List PyVal) (st1 : TState),
      kind ≠ ListKind.uncollapsible →
      adjacentStrs items = false →
      collapse_variables st kind items vars = .ok (res, st1) →
      adjacentStrs res = false := by
  intro st kind items vars res st1 hk hItems hgo
  unfold collapse_variables at hgo
  rw [show (decide ¬(kind = ListKind.uncollapsible)) = true from
    decide_eq_true hk] at hgo
  exact collapse_go_no_adjacent vars items [] false st st1 res hItems rfl
    (fun _ hex => absurd hex (by simp)) hgo

/-- C5 witness: the amended theorem applied to a collapsible list whose
variable resolves, with all hypotheses discharged concretely. -/
theorem c5_collapse_no_adjacent_witness :
    (ListKind.plain ≠ ListKind.uncollapsible ∧
     adjacentStrs [.str "a", .varRef 3 "x", .str "b"] = false ∧
     collapse_variables ⟨[], [], [], []⟩ .plain
        [.str "a", .varRef 3 "x", .str "b"] [("x", .str "-")] =
       .ok ([.str "a-b"], ⟨[], [], [], []⟩)) ∧
    adjacentStrs [.str "a-b"] = false :=
  ⟨⟨by decide, rfl, rfl⟩,
   c5_collapse_no_adjacent ⟨[], [], [], []⟩ .plain
     [.str "a", .varRef 3 "x", .str "b"] [("x", .str "-")] [.str "a-b"]
     ⟨[], [], [], []⟩ (by decide) rfl rfl⟩


theorem decDigitVal_digitChar (d : Nat) (h : d < 10) :
    decDigitVal (Nat.digitChar d) = d := by
  interval_cases d <;> rfl

theorem decVal_append (l : List Char) (c : Char) :
    decVal (l ++ [c]) = decVal l * 10 + decDigitVal c := by
  simp [decVal, List.foldl_append]

theorem toDigitsCore_decVal :
    ∀ (f n : Nat) (acc : List Char), n < f →
      ∃ ds, Nat.toDigitsCore 10 f n acc = ds ++ acc ∧ decVal ds = n := by
  intro f
  induction f with
  | zero => intro n acc h; omega
  | succ f ih =>
    intro n acc h
    simp only [Nat.toDigitsCore]
    by_cases hdiv : n / 10 = 0
    · refine ⟨[Nat.digitChar (n % 10)], by simp [hdiv], ?_⟩
      have hn : n < 10 := by omega
      have : n % 10 = n := Nat.mod_eq_of_lt hn
      simp [decVal, decDigitVal_digitChar (n % 10) (Nat.mod_lt n (by omega))]
      omega
    · rw [if_neg hdiv]
      have hlt : n / 10 < f := by omega
      obtain ⟨ds, hds, hval⟩ := ih (n / 10) (Nat.digitChar (n % 10) :: acc) hlt
      refine ⟨ds ++ [Nat.digitChar (n % 10)], by simpa using hds, ?_⟩
      rw [decVal_append, hval,
        decDigitVal_digitChar (n % 10) (Nat.mod_lt n (by omega))]
      omega

theorem nat_repr_injective (m n : Nat) (h : Nat.repr m = Nat.repr n) :
    m = n := by
  obtain ⟨ds1, hds1, hv1⟩ := toDigitsCore_decVal (m + 1) m [] (by omega)
  obtain ⟨ds2, hds2, hv2⟩ := toDigitsCore_decVal (n + 1) n [] (by omega)
  have h2 : (Nat.toDigits 10 m).asString = (Nat.toDigits 10 n).asString := h
  have h3 : Nat.toDigits 10 m = Nat.toDigits 10 n := by
    have := congrArg String.data h2
    simpa [List.asString] using this
  rw [Nat.toDigits, Nat.toDigits] at h3
  rw [hds1, hds2] at h3
  simp at h3
  rw [← hv1, ← hv2, h3]

theorem ifCondition_name_injective (i n : Nat)
    (h : "IfCondition" ++ toString (i + 1) = "IfCondition" ++ toString (n + 1)) :
    i = n := by
  have hd := congrArg String.data h
  simp only [String.data_append] at hd
  have h3 := List.append_cancel_left hd
  have h4 : toString (i + 1) = toString (n + 1) := by
    cases hti : toString (i + 1) with
    | mk l1 =>
      cases htn : toString (n + 1) with
      | mk l2 =>
        rw [hti, htn] at h3
        simp only [] at h3
        exact congrArg String.mk (by simpa using h3)
  have h5 : Nat.repr (i + 1) = Nat.repr (n + 1) := h4
  have := nat_repr_injective (i + 1) (n + 1) h5
  omega


/-- Generic state-relation preservation through the pair fold. -/
theorem processPairsFold_rel
    (fKey fVal : TState → PyVal → Except Err (PyVal × TState))
    (P : TState → TState → Prop)
    (htrans : ∀ a b c, P a b → P b c → P a c)
    (hrefl : ∀ a, P a a)
    (hkey : ∀ s n v s1, fKey s n = .ok (v, s1) → P s s1)
    (hval : ∀ s n v s1, fVal s n = .ok (v, s1) → P s s1) :
    ∀ (ps : List (PyVal × PyVal)) (acc : List (PyVal × PyVal) × TState) out,
      processPairsFold fKey fVal ps acc = .ok out → P acc.2 out.2 := by
  intro ps
  induction ps with
  | nil =>
    intro acc out h
    simp only [processPairsFold] at h
    cases h
    exact hrefl _
  | cons kv rest ihp =>
    intro acc out h
    simp only [processPairsFold] at h
    cases hk : fKey acc.2 kv.1 with
    | error e => rw [hk] at h; simp [bind, Except.bind] at h
    | ok p1 =>
      obtain ⟨k1, s1⟩ := p1
      rw [hk] at h
      simp only [bind, Except.bind] at h
      cases hv : fVal s1 kv.2 with
      | error e => rw [hv] at h; simp at h
      | ok p2 =>
        obtain ⟨v1, s2⟩ := p2
        rw [hv] at h
        simp only at h
        exact htrans _ _ _
          (htrans _ _ _ (hkey _ _ _ _ hk) (hval _ _ _ _ hv))
          (ihp (odictInsert acc.1 k1 v1, s2) out h)

/-- Generic state-relation preservation through the item fold. -/
theorem processItemsFold_rel
    (f : TState → PyVal → Except Err (PyVal × TState))
    (P : TState → TState → Prop)
    (htrans : ∀ a b c, P a b → P b c → P a c)
    (hrefl : ∀ a, P a a)
    (hf : ∀ s n v s1, f s n = .ok (v, s1) → P s s1) :
    ∀ (items : List PyVal) (acc : List PyVal × TState) out,
      processItemsFold f items acc = .ok out → P acc.2 out.2 := by
  intro items
  induction items with
  | nil =>
    intro acc out h
    simp only [processItemsFold] at h
    cases h
    exact hrefl _
  | cons item rest ihp =>
    intro acc out h
    simp only [processItemsFold] at h
    cases hi : f acc.2 item with
    | error e => rw [hi] at h; simp [bind, Except.bind] at h
    | ok p1 =>
      obtain ⟨v1, s1⟩ := p1
      rw [hi] at h
      simp only [bind, Except.bind] at h
      exact htrans _ _ _ (hf _ _ _ _ hi) (ihp (acc.1 ++ [v1], s1) out h)

/-- The collapsing loop only touches the unresolved set. -/
theorem collapse_go_fields (c : Bool) (vars : List (String × PyVal)) :
    ∀ (items res : List PyVal) (flag : Bool) (st : TState) (r : List PyVal)
      (st1 : TState),
      collapse_variables_go c vars items res flag st = .ok (r, st1) →
      st1.vars = st.vars ∧ st1.macros = st.macros ∧
        st1.ifConditions = st.ifConditions := by
  intro items
  induction items with
  | nil =>
    intro res flag st r st1 h
    simp only [collapse_variables_go] at h
    cases h
    exact ⟨rfl, rfl, rfl⟩
  | cons item0 rest ih =>
    intro res flag st r st1 h
    cases item0 with
    | varRef id name =>
      simp only [collapse_variables_go] at h
      cases hr : resolve name vars with
      | ok v =>
        rw [hr] at h
        dsimp only at h
        cases v with
        | str s =>
          dsimp only at h
          by_cases hcond : c = true ∧ res ≠ []
          · rw [if_pos (by simpa using hcond)] at h
            cases hm : mergeLast res s with
            | error e => rw [hm] at h; exact (Except.noConfusion h)
            | ok merged => rw [hm] at h; exact ih _ _ _ _ _ h
          · rw [if_neg (by simpa using hcond)] at h
            exact ih _ _ _ _ _ h
        | pyNone => exact ih _ _ _ _ _ h
        | varRef id2 n2 => exact ih _ _ _ _ _ h
        | ifCond cc => exact ih _ _ _ _ _ h
        | list k l => exact ih _ _ _ _ _ h
        | dict d => exact ih _ _ _ _ _ h
      | error e =>
        rw [hr] at h
        cases e with
        | keyError m =>
          dsimp only at h
          have h2 := ih _ _ _ _ _ h
          simpa using h2
        | typeError => exact (by simp at h)
        | attributeError m => exact (by simp at h)
        | constructorError m => exact (by simp at h)
        | exprParseError m => exact (by simp at h)
        | invalidTagError => exact (by simp at h)
        | assertionError => exact (by simp at h)
        | indexError => exact (by simp at h)
        | recursionError => exact (by simp at h)
    | str s =>
      simp only [collapse_variables_go] at h
      by_cases hcond : flag = true ∧ res ≠ []
      · rw [if_pos (by simpa using hcond)] at h
        cases hm : mergeLast res s with
        | error e => rw [hm] at h; exact (Except.noConfusion h)
        | ok merged => rw [hm] at h; exact ih _ _ _ _ _ h
      · rw [if_neg (by simpa using hcond)] at h
        exact ih _ _ _ _ _ h
    | pyNone => simp only [collapse_variables_go] at h; exact ih _ _ _ _ _ h
    | ifCond cc => simp only [collapse_variables_go] at h; exact ih _ _ _ _ _ h
    | list k l => simp only [collapse_variables_go] at h; exact ih _ _ _ _ _ h
    | dict d => simp only [collapse_variables_go] at h; exact ih _ _ _ _ _ h


theorem namesSequential_fresh (T : List (String × PyVal))
    (h : namesSequential T) :
    T.any (fun p => p.1 == ("IfCondition" ++ toString (T.length + 1))) = false := by
  by_contra hc
  rw [Bool.not_eq_false, List.any_eq_true] at hc
  obtain ⟨p, hp, heq⟩ := hc
  have hk : p.1 = "IfCondition" ++ toString (T.length + 1) := by simpa using heq
  have hmem : p.1 ∈ T.map Prod.fst := List.mem_map_of_mem _ hp
  rw [h, List.mem_map] at hmem
  obtain ⟨i, hi, hname⟩ := hmem
  rw [List.mem_range] at hi
  have := ifCondition_name_injective i T.length (by rw [hname, hk])
  omega

theorem dictSet_fresh_append (T : List (String × PyVal)) (k : String)
    (v : PyVal) (h : T.any (fun p => p.1 == k) = false) :
    dictSet T k v = T ++ [(k, v)] := by
  unfold dictSet
  rw [h]
  simp

theorem namesSequential_append (T : List (String × PyVal)) (c : PyVal)
    (h : namesSequential T) :
    namesSequential (T ++ [("IfCondition" ++ toString (T.length + 1), c)]) := by
  unfold namesSequential at h ⊢
  rw [List.map_append, h]
  simp [List.range_succ]

/-- Combined condition-table invariant of the cloudpuff `process_tree`:
with condition resolution off the table is untouched, and with it on, a
table whose names are exactly `IfCondition1..n` in order only ever grows by
appension, keeping the names sequential (so no assigned name is ever
reused). -/
theorem process_tree_ifConds :
    ∀ (fuel : Nat) (st : TState) (node : PyVal)
      (vars : List (String × PyVal)) (rv ri : Bool) (v : PyVal)
      (st1 : TState),
      process_tree fuel st node vars rv ri = .ok (v, st1) →
      (ri = false → st1.ifConditions = st.ifConditions) ∧
      (namesSequential st.ifConditions →
        namesSequential st1.ifConditions ∧
        ∃ ext, st1.ifConditions = st.ifConditions ++ ext) := by
  intro fuel
  induction fuel with
  | zero => intro st node vars rv ri v st1 h; simp [process_tree] at h
  | succ fuel ih =>
    intro st node vars rv ri v st1 h
    have htrans : ∀ a b c : TState,
        ((ri = false → b.ifConditions = a.ifConditions) ∧
          (namesSequential a.ifConditions → namesSequential b.ifConditions ∧
            ∃ ext, b.ifConditions = a.ifConditions ++ ext)) →
        ((ri = false → c.ifConditions = b.ifConditions) ∧
          (namesSequential b.ifConditions → namesSequential c.ifConditions ∧
            ∃ ext, c.ifConditions = b.ifConditions ++ ext)) →
        ((ri = false → c.ifConditions = a.ifConditions) ∧
          (namesSequential a.ifConditions → namesSequential c.ifConditions ∧
            ∃ ext, c.ifConditions = a.ifConditions ++ ext)) := by
      rintro a b c ⟨f1, g1⟩ ⟨f2, g2⟩
      refine ⟨fun hri => (f2 hri).trans (f1 hri), fun hn => ?_⟩
      obtain ⟨hn1, ext1, he1⟩ := g1 hn
      obtain ⟨hn2, ext2, he2⟩ := g2 hn1
      exact ⟨hn2, ext1 ++ ext2, by rw [he2, he1, List.append_assoc]⟩
    have hrefl : ∀ a : TState,
        (ri = false → a.ifConditions = a.ifConditions) ∧
          (namesSequential a.ifConditions → namesSequential a.ifConditions ∧
            ∃ ext, a.ifConditions = a.ifConditions ++ ext) :=
      fun a => ⟨fun _ => rfl, fun hn => ⟨hn, [], by simp⟩⟩
    have hkey : ∀ (s : TState) (n v2 : PyVal) (s2 : TState),
        process_tree fuel s n vars rv false = .ok (v2, s2) →
        (ri = false → s2.ifConditions = s.ifConditions) ∧
          (namesSequential s.ifConditions → namesSequential s2.ifConditions ∧
            ∃ ext, s2.ifConditions = s.ifConditions ++ ext) := by
      intro s n v2 s2 hc
      have hu : s2.ifConditions = s.ifConditions := (ih s n vars rv false v2 s2 hc).1 rfl
      exact ⟨fun _ => hu, fun hn => ⟨hu ▸ hn, [], by simp [hu]⟩⟩
    have hval : ∀ (s : TState) (n v2 : PyVal) (s2 : TState),
        process_tree fuel s n vars rv ri = .ok (v2, s2) →
        (ri = false → s2.ifConditions = s.ifConditions) ∧
          (namesSequential s.ifConditions → namesSequential s2.ifConditions ∧
            ∃ ext, s2.ifConditions = s.ifConditions ++ ext) :=
      fun s n v2 s2 hc => ih s n vars rv ri v2 s2 hc
    cases node with
    | dict pairs =>
      simp only [process_tree] at h
      cases hf : processPairsFold (fun s n => process_tree fuel s n vars rv false)
          (fun s n => process_tree fuel s n vars rv ri) pairs ([], st) with
      | error e => rw [hf] at h; simp [bind, Except.bind] at h
      | ok out =>
        obtain ⟨pairs1, s2⟩ := out
        rw [hf] at h
        simp only [bind, Except.bind] at h
        have hrel := processPairsFold_rel _ _ _ htrans hrefl hkey hval pairs
          ([], st) (pairs1, s2) hf
        cases h
        exact hrel
    | list kind items =>
      simp only [process_tree] at h
      cases hc : collapse_variables st kind items vars with
      | error e => rw [hc] at h; simp [bind, Except.bind] at h
      | ok out1 =>
        obtain ⟨collapsed, s1⟩ := out1
        rw [hc] at h
        simp only [bind, Except.bind] at h
        cases hfold : processItemsFold
            (fun s n => process_tree fuel s n vars rv ri) collapsed ([], s1) with
        | error e => rw [hfold] at h; simp at h
        | ok out2 =>
          obtain ⟨value, s2⟩ := out2
          rw [hfold] at h
          simp only at h
          unfold collapse_variables at hc
          have hcol := collapse_go_fields _ vars items [] false st collapsed s1 hc
          have h1 := hcol.2.2
          have hP1 : (ri = false → s1.ifConditions = st.ifConditions) ∧
              (namesSequential st.ifConditions →
                namesSequential s1.ifConditions ∧
                ∃ ext, s1.ifConditions = st.ifConditions ++ ext) :=
            ⟨fun _ => h1, fun hn => ⟨h1 ▸ hn, [], by simp [h1]⟩⟩
          have hP2 := processItemsFold_rel _ _ htrans hrefl hval collapsed
            ([], s1) (value, s2) hfold
          have hP := htrans _ _ _ hP1 hP2
          cases kind with
          | varsStrings =>
            by_cases hall : value.all isStr = true
            · rw [if_pos hall] at h; cases h; exact hP
            · rw [if_neg hall] at h; cases h; exact hP
          | uncollapsible => cases h; exact hP
          | plain => cases h; exact hP
    | varRef id name =>
      simp only [process_tree] at h
      cases hrv : rv with
      | false => rw [hrv] at h; simp only [Bool.false_eq_true, if_false] at h; cases h; exact hrefl st
      | true =>
        rw [hrv] at h
        simp only [if_true] at h
        cases hr : resolve name vars with
        | ok v2 =>
          rw [hr] at h
          cases h
          exact ⟨fun _ => rfl, fun hn => ⟨hn, [], by simp⟩⟩
        | error e =>
          rw [hr] at h
          cases e <;> simp at h
    | ifCond cond =>
      simp only [process_tree] at h
      cases hri : ri with
      | false =>
        rw [hri] at h
        simp only [Bool.false_eq_true, if_false, bind, Except.bind] at h
        cases hin : process_tree fuel st cond vars rv false with
        | error e => rw [hin] at h; simp at h
        | ok out =>
          obtain ⟨c1, sI⟩ := out
          rw [hin] at h
          simp only at h
          have hu : sI.ifConditions = st.ifConditions :=
            (ih st cond vars rv false c1 sI hin).1 rfl
          cases h
          exact ⟨fun _ => hu, fun hn => ⟨hu ▸ hn, [], by simp [hu]⟩⟩
      | true =>
        rw [hri] at h
        simp only [if_true, bind, Except.bind] at h
        cases hin : process_tree fuel st cond vars rv false with
        | error e => rw [hin] at h; simp at h
        | ok out =>
          obtain ⟨c1, sI⟩ := out
          rw [hin] at h
          simp only at h
          have hu : sI.ifConditions = st.ifConditions :=
            (ih st cond vars rv false c1 sI hin).1 rfl
          cases h
          refine ⟨fun hcontra => Bool.noConfusion hcontra, fun hn => ?_⟩
          rw [hu]
          have hfresh := namesSequential_fresh st.ifConditions hn
          have happ := dictSet_fresh_append st.ifConditions
            ("IfCondition" ++ toString (st.ifConditions.length + 1)) c1 hfresh
          rw [happ]
          exact ⟨namesSequential_append st.ifConditions c1 hn,
            [("IfCondition" ++ toString (st.ifConditions.length + 1), c1)], rfl⟩
    | str s =>
      simp only [process_tree] at h
      cases h
      exact hrefl st
    | pyNone =>
      simp only [process_tree] at h
      cases h
      exact hrefl st


/-- C2: with condition resolution enabled, `process_tree` materializes a
pending condition by assigning the next sequential 1-based name (table
length plus one), resolving the inner expression with condition
materialization off, registering name to resolved expression in the
ordered table, and replacing the node by the name string; resolution with
materialization off never touches the table, and under materialization a
sequential table only grows by appension with names staying sequential, so
no assigned name is reused; three independent If expressions yield
IfCondition1, IfCondition2, IfCondition3 in first-encountered order. -/
theorem c2_condition_materialization :
    (∀ (fuel : Nat) (st : TState) (cond : PyVal)
       (vars : List (String × PyVal)) (rv : Bool) (c1 : PyVal) (sI : TState),
       process_tree fuel st cond vars rv false = .ok (c1, sI) →
       process_tree (fuel + 1) st (.ifCond cond) vars rv true =
         .ok (.str ("IfCondition" ++ toString (st.ifConditions.length + 1)),
              { sI with ifConditions :=
                  dictSet sI.ifConditions ("IfCondition" ++ toString (st.ifConditions.length + 1)) c1 })) ∧
    (∀ (fuel : Nat) (st : TState) (node : PyVal)
       (vars : List (String × PyVal)) (rv : Bool) (v : PyVal) (st1 : TState),
       process_tree fuel st node vars rv false = .ok (v, st1) →
       st1.ifConditions = st.ifConditions) ∧
    (∀ (fuel : Nat) (st : TState) (node : PyVal)
       (vars : List (String × PyVal)) (rv : Bool) (v : PyVal) (st1 : TState),
       process_tree fuel st node vars rv true = .ok (v, st1) →
       namesSequential st.ifConditions →
       namesSequential st1.ifConditions ∧
       ∃ ext, st1.ifConditions = st.ifConditions ++ ext) ∧
    process_tree 20 ⟨[], [], [], []⟩
        (.list .plain [.ifCond (.str "c1"), .ifCond (.str "c2"),
                       .ifCond (.str "c3")]) [] false true =
      .ok (.list .plain [.str "IfCondition1", .str "IfCondition2",
                         .str "IfCondition3"],
           ⟨[], [], [], [("IfCondition1", .str "c1"),
                         ("IfCondition2", .str "c2"),
                         ("IfCondition3", .str "c3")]⟩) := by
  refine ⟨?_, ?_, ?_, ?_⟩
  · intro fuel st cond vars rv c1 sI h
    simp only [process_tree, if_true, bind, Except.bind]
    rw [h]
  · intro fuel st node vars rv v st1 h
    exact (process_tree_ifConds fuel st node vars rv false v st1 h).1 rfl
  · intro fuel st node vars rv v st1 h hn
    exact (process_tree_ifConds fuel st node vars rv true v st1 h).2 hn
  · rfl

/-- Witness for C2 at a concrete input: materializing a single If over the
condition string c from the empty state yields the name IfCondition1 and
registers it in the table. -/
theorem c2_condition_materialization_witness :
    process_tree 3 ⟨[], [], [], []⟩ (.ifCond (.str "c")) [] false true =
      .ok (.str "IfCondition1",
           ⟨[], [], [], [("IfCondition1", .str "c")]⟩) := by
  have h := c2_condition_materialization.1 2 ⟨[], [], [], []⟩ (.str "c")
    [] false (.str "c") ⟨[], [], [], []⟩ rfl
  exact h


/-- C9: Base64 and GetAZs parameter parsing on empty parameter text
returns the empty string as the single parameter rather than raising; an
error is raised exactly when more than one parameter is present. -/
theorem c9_base64_getazs_empty_params :
    (∀ f : String → PyVal,
      base64_parse_params "" f = .ok (.str "") ∧
      getazs_parse_params "" f = .ok (.str "")) ∧
    (∀ (s : String) (f : String → PyVal),
      ((∃ e, base64_parse_params s f = .error e) ↔
        1 < (function_parse_params s f).length) ∧
      ((∃ e, getazs_parse_params s f = .error e) ↔
        1 < (function_parse_params s f).length)) := by
  refine ⟨fun f => ⟨rfl, rfl⟩, fun s f => ⟨?_, ?_⟩⟩
  · unfold base64_parse_params
    by_cases h : (function_parse_params s f).length > 1
    · rw [if_pos h]
      exact ⟨fun _ => h, fun _ => ⟨_, rfl⟩⟩
    · rw [if_neg h]
      refine ⟨?_, fun hgt => absurd hgt h⟩
      rintro ⟨e, he⟩
      revert he
      cases hl : function_parse_params s f with
      | nil => intro he; exact Except.noConfusion he
      | cons a t =>
        cases t with
        | nil => intro he; exact Except.noConfusion he
        | cons b t2 => intro he; exact Except.noConfusion he
  · unfold getazs_parse_params
    by_cases h : (function_parse_params s f).length > 1
    · rw [if_pos h]
      exact ⟨fun _ => h, fun _ => ⟨_, rfl⟩⟩
    · rw [if_neg h]
      refine ⟨?_, fun hgt => absurd hgt h⟩
      rintro ⟨e, he⟩
      revert he
      cases hl : function_parse_params s f with
      | nil => intro he; exact Except.noConfusion he
      | cons a t =>
        cases t with
        | nil => intro he; exact Except.noConfusion he
        | cons b t2 => intro he; exact Except.noConfusion he

/-- C10: when no token stream is in progress at entry, `parse` leaves the
parser with both the token stream and the current token reset to none —
the `finally` clause runs whether the computation returned or raised — so
a successive `parse` call on the returned parser behaves exactly as on a
freshly reset parser and its entry assertion cannot fire. -/
theorem c10_parse_state_restore :
    ∀ (p : ExprParser) (l1 l2 : List String),
      p.tokens = none →
      (parse p l1).2.tokens = none ∧
      (parse p l1).2.curToken = none ∧
      parse (parse p l1).2 l2 =
        parse { p with tokens := none, curToken := none } l2 := by
  intro p l1 l2 h
  have hif : p.tokens.isSome = false := by rw [h]; rfl
  unfold parse
  rw [hif]
  exact ⟨rfl, rfl, rfl⟩

/-- Witness for C10 at a concrete parser and inputs. -/
theorem c10_parse_state_restore_witness :
    (parse (ExprParser.mk [] PyVal.str (fun o _ _ => PyVal.str o) none none)
        ["x"]).2.tokens = none ∧
    (parse (ExprParser.mk [] PyVal.str (fun o _ _ => PyVal.str o) none none)
        ["x"]).2.curToken = none ∧
    parse (parse (ExprParser.mk [] PyVal.str (fun o _ _ => PyVal.str o)
        none none) ["x"]).2 ["y"] =
      parse { ExprParser.mk [] PyVal.str (fun o _ _ => PyVal.str o)
          none none with tokens := none, curToken := none } ["y"] :=
  c10_parse_state_restore
    (ExprParser.mk [] PyVal.str (fun o _ _ => PyVal.str o) none none)
    ["x"] ["y"] rfl


/-- C7: on the expression tokens ( a && b — an unmatched left parenthesis
where the input ends immediately after the parenthesized sub-expression —
`parse` raises AttributeError (the guard dereferences the `None` current
token before comparing it to a right parenthesis), not the parser's
ExpressionParseError that the specification promises. -/
theorem c7_unmatched_paren_bug :
    (parse ⟨[("&&", 1, "LEFT")], PyVal.str, (fun o _ _ => PyVal.str o),
        none, none⟩ ["(", "a", "&&", "b"]).1 =
      .error (.attributeError "NoneType object has no attribute name") := by
  simp +decide [parse, iter_tokens, lookupOp, strip_quotes, nextToken,
    compute_expression.eq_def, compute_atom.eq_def, compute_expr_loop.eq_def,
    compute_op]


theorem odictInsert_mem2 (acc : List (PyVal × PyVal)) (k v : PyVal)
    (t : PyVal × PyVal) (h : t ∈ odictInsert acc k v) :
    t ∈ acc ∨ t.2 = v := by
  unfold odictInsert at h
  by_cases ha : acc.any (fun p => p.1 == k)
  · rw [if_pos ha] at h
    rw [List.mem_map] at h
    obtain ⟨p, hp, he⟩ := h
    by_cases hk : p.1 == k
    · rw [if_pos hk] at he
      right
      rw [← he]
    · rw [if_neg hk] at he
      left
      rw [← he]
      exact hp
  · rw [if_neg ha, List.mem_append] at h
    cases h with
    | inl h => exact .inl h
    | inr h => right; rw [List.mem_singleton] at h; rw [h]

theorem get_tags_step_good (paramsD : List (String × PyVal))
    (acc : List (PyVal × PyVal)) (kv : PyVal × PyVal)
    (hgood : goodTag paramsD kv)
    (hacc : ∀ t ∈ acc, isStr t.2 = true) :
    ∃ acc1, get_tags_step paramsD acc kv = .ok acc1 ∧
      ∀ t ∈ acc1, isStr t.2 = true := by
  obtain ⟨k, v2⟩ := kv
  rcases hgood with ⟨s, hs⟩ | ⟨inner, r, pv, hv, hfind, hget⟩
  · dsimp only at hs
    subst hs
    refine ⟨odictInsert acc k (.str s), rfl, ?_⟩
    intro t ht
    rcases odictInsert_mem2 acc k (.str s) t ht with h | h
    · exact hacc t h
    · rw [h]; rfl
  · dsimp only at hv
    subst hv
    unfold get_tags_step
    dsimp only
    rw [hfind]
    dsimp only
    rw [hget]
    simp only [bind, Except.bind]
    refine ⟨odictInsert acc k (.str pv), rfl, ?_⟩
    intro t ht
    rcases odictInsert_mem2 acc k (.str pv) t ht with h | h
    · exact hacc t h
    · rw [h]; rfl

theorem get_tags_fold_good (paramsD : List (String × PyVal)) :
    ∀ (pairs : List (PyVal × PyVal)) (acc : List (PyVal × PyVal)),
      (∀ t ∈ acc, isStr t.2 = true) →
      (∀ kv ∈ pairs, goodTag paramsD kv) →
      ∃ tags, List.foldlM (get_tags_step paramsD) acc pairs = .ok tags ∧
        ∀ t ∈ tags, isStr t.2 = true := by
  intro pairs
  induction pairs with
  | nil => intro acc hacc _; exact ⟨acc, rfl, hacc⟩
  | cons kv rest ih =>
    intro acc hacc hgood
    obtain ⟨acc1, hstep, hacc1⟩ :=
      get_tags_step_good paramsD acc kv (hgood kv (by simp)) hacc
    obtain ⟨tags, hfold, htags⟩ := ih acc1 hacc1
      (fun kv2 hm => hgood kv2 (by simp [hm]))
    refine ⟨tags, ?_, htags⟩
    rw [List.foldlM_cons, hstep]
    simpa using hfold

/-- C8: `get_tags` resolves the declared tags against the parameter
mapping: when every tag value is a string or a Ref-dict resolving to a
string parameter (and Name, and Version if present, are strings), it
returns a mapping whose values are all strings; a tag whose Ref names an
absent parameter raises KeyError with that name; a tag whose Ref resolves
to a non-string, or whose value is neither a string nor a dict, raises
InvalidTagError. -/
theorem c8_get_tags :
    (∀ (meta params : List (String × PyVal)) (nm : String)
       (pairs : List (PyVal × PyVal)),
       dictGet meta "Name" = some (.str nm) →
       (dictGet meta "Version" = none ∨
         ∃ vs, dictGet meta "Version" = some (.str vs)) →
       dictGet meta "Tags" = some (.dict pairs) →
       (∀ kv ∈ pairs, goodTag
         (params.foldl (fun acc p => dictSet acc p.1 p.2) []) kv) →
       ∃ tags, get_tags meta params = .ok tags ∧
         ∀ t ∈ tags, isStr t.2 = true) ∧
    (∀ (meta params : List (String × PyVal)) (nameV : PyVal) (k : PyVal)
       (inner rest : List (PyVal × PyVal)) (kr : PyVal) (r : String),
       dictGet meta "Name" = some nameV →
       dictGet meta "Tags" = some (.dict ((k, .dict inner) :: rest)) →
       inner.find? (fun p => p.1 == PyVal.str "Ref") = some (kr, .str r) →
       dictGet (params.foldl (fun acc p => dictSet acc p.1 p.2) []) r =
         none →
       get_tags meta params = .error (.keyError r)) ∧
    (∀ (meta params : List (String × PyVal)) (nameV : PyVal) (k : PyVal)
       (inner rest : List (PyVal × PyVal)) (kr : PyVal) (r : String)
       (pv : PyVal),
       dictGet meta "Name" = some nameV →
       dictGet meta "Tags" = some (.dict ((k, .dict inner) :: rest)) →
       inner.find? (fun p => p.1 == PyVal.str "Ref") = some (kr, .str r) →
       dictGet (params.foldl (fun acc p => dictSet acc p.1 p.2) []) r =
         some pv →
       isStr pv = false →
       get_tags meta params = .error .invalidTagError) ∧
    (∀ (meta params : List (String × PyVal)) (nameV : PyVal) (k v : PyVal)
       (rest : List (PyVal × PyVal)),
       dictGet meta "Name" = some nameV →
       dictGet meta "Tags" = some (.dict ((k, v) :: rest)) →
       (∀ inner, v ≠ .dict inner) →
       isStr v = false →
       get_tags meta params = .error .invalidTagError) := by
  refine ⟨?_, ?_, ?_, ?_⟩
  · intro meta params nm pairs hName hVer hTags hgood
    unfold get_tags
    rw [hName, hTags]
    simp only [bind, Except.bind]
    rcases hVer with hv | ⟨vs, hv⟩ <;> rw [hv]
    · exact get_tags_fold_good _ pairs _
        (by intro t ht; simp at ht; rw [ht]; rfl) hgood
    · refine get_tags_fold_good _ pairs _ ?_ hgood
      intro t ht
      simp +decide [odictInsert] at ht
      rcases ht with h | h <;> rw [h]
      · rfl
      · rfl
  · intro meta params nameV k inner rest kr r hName hTags hfind hmiss
    unfold get_tags
    rw [hName, hTags]
    simp only [bind, Except.bind]
    rw [List.foldlM_cons]
    unfold get_tags_step
    dsimp only
    rw [hfind]
    dsimp only
    rw [hmiss]
    rfl
  · intro meta params nameV k inner rest kr r pv hName hTags hfind hget hpv
    unfold get_tags
    rw [hName, hTags]
    simp only [bind, Except.bind]
    rw [List.foldlM_cons]
    unfold get_tags_step
    dsimp only
    rw [hfind]
    dsimp only
    rw [hget]
    simp only [bind, Except.bind]
    rw [hpv]
    rfl
  · intro meta params nameV k v rest hName hTags hnd hns
    unfold get_tags
    rw [hName, hTags]
    simp only [bind, Except.bind]
    rw [List.foldlM_cons]
    unfold get_tags_step
    dsimp only
    cases v with
    | dict inner => exact absurd rfl (hnd inner)
    | str s => simp [isStr] at hns
    | pyNone => rfl
    | varRef id name => rfl
    | ifCond c => rfl
    | list kind items => rfl

/-- Witness for C8 at a concrete template: a Meta with a string Name and
Version and two good tags (one Ref to a present string parameter, one
literal string) resolves to an all-string mapping. -/
theorem c8_get_tags_witness :
    ∃ tags,
      get_tags
        [("Name", .str "stack"), ("Version", .str "1.0"),
         ("Tags", .dict [(.str "Env", .dict [(.str "Ref", .str "p1")]),
                         (.str "Team", .str "infra")])]
        [("p1", .str "prod")] = .ok tags ∧
      ∀ t ∈ tags, isStr t.2 = true := by
  refine c8_get_tags.1
    [("Name", .str "stack"), ("Version", .str "1.0"),
     ("Tags", .dict [(.str "Env", .dict [(.str "Ref", .str "p1")]),
                     (.str "Team", .str "infra")])]
    [("p1", .str "prod")] "stack"
    [(.str "Env", .dict [(.str "Ref", .str "p1")]),
     (.str "Team", .str "infra")]
    rfl (.inr ⟨"1.0", rfl⟩) rfl ?_
  intro kv hk
  simp only [List.mem_cons, List.not_mem_nil, or_false] at hk
  rcases hk with h | h <;> subst h
  · exact .inr ⟨[(.str "Ref", .str "p1")], "p1", "prod", rfl, rfl, rfl⟩
  · exact .inl ⟨"infra", rfl⟩


/-- C3: the string parser lowers the chain If(a) X ElseIf(b) Y Else Z to
the nested conditional If[a, X, If[b, Y, Z]] — the ElseIf becomes a
synthetic If living in the parent's false branch; and every If block
serializes to exactly two branches (`Fn::If` over the condition parameter,
the true branch and the false branch), an absent or empty false branch
being synthesized as the no-value placeholder Ref AWS::NoValue. -/
theorem c3_if_chain_lowering :
    (∀ (fuel : Nat) (st st1 st2 : TState) (name : String) (p : String)
       (isE : Bool) (trueC falseC : List Content) (cf : Bool) (pc : Nat)
       (t1 f1 : PyVal),
       normalizeAny fuel st (.many trueC) = .ok (t1, st1) →
       normalizeAny fuel st1 (.many falseC) = .ok (f1, st2) →
       normalizeAny (fuel + 1) st
           (.item (.ifBlockFn name [.str p] isE trueC falseC cf pc)) =
         .ok (.dict [(.str "Fn::If",
               .list .uncollapsible
                 [.str p, t1,
                  if pyFalsy f1 then
                    PyVal.dict [(.str "Ref", .str "AWS::NoValue")]
                  else f1])], st2)) ∧
    (∀ (a b x y z : String), z ≠ "" → ∀ (f : Nat) (st : TState),
       parse_events (f + 20) st
         [.func "If" [.str a] true, .content (.str x),
          .func "ElseIf" [.str b] true, .content (.str y),
          .func "Else" [] true, .content (.str z), .closeBlock] =
       .ok (.dict [(.str "Fn::If",
             .list .uncollapsible
               [.str a, .str x,
                .dict [(.str "Fn::If",
                        .list .uncollapsible [.str b, .str y, .str z])]])],
            st)) ∧
    (∀ (a x : String) (f : Nat) (st : TState),
       parse_events (f + 20) st
         [.func "If" [.str a] true, .content (.str x), .closeBlock] =
       .ok (.dict [(.str "Fn::If",
             .list .uncollapsible
               [.str a, .str x,
                .dict [(.str "Ref", .str "AWS::NoValue")]])], st)) := by
  refine ⟨?_, ?_, ?_⟩
  · intro fuel st st1 st2 name p isE trueC falseC cf pc t1 f1 ht hf
    show (do
      let (t1, st1) ← normalizeAny fuel st (.many trueC)
      let (f1, st2) ← normalizeAny fuel st1 (.many falseC)
      let f2 := if pyFalsy f1 then
          PyVal.dict [(.str "Ref", .str "AWS::NoValue")]
        else f1
      Except.ok (PyVal.dict [(.str "Fn::If",
        .list .uncollapsible [.str p, t1, f2])], st2)) = _
    rw [ht]
    simp only [bind, Except.bind]
    rw [hf]
  · intro a b x y z hz f st
    obtain ⟨c, cs, rfl⟩ : ∃ c cs, z = String.mk (c :: cs) := by
      cases z with
      | mk l =>
        cases l with
        | nil => simp at hz
        | cons c cs => exact ⟨c, cs, rfl⟩
    rfl
  · intro a x f st
    rfl

/-- Witness for C3 at concrete strings: the chain
If(cond1) X ElseIf(cond2) Y Else Z lowers to the nested Fn::If. -/
theorem c3_if_chain_lowering_witness :
    parse_events 20 ⟨[], [], [], []⟩
      [.func "If" [.str "cond1"] true, .content (.str "X"),
       .func "ElseIf" [.str "cond2"] true, .content (.str "Y"),
       .func "Else" [] true, .content (.str "Z"), .closeBlock] =
    .ok (.dict [(.str "Fn::If",
          .list .uncollapsible
            [.str "cond1", .str "X",
             .dict [(.str "Fn::If",
                     .list .uncollapsible
                       [.str "cond2", .str "Y", .str "Z"])]])],
         ⟨[], [], [], []⟩) :=
  c3_if_chain_lowering.2.1 "cond1" "cond2" "X" "Y" "Z" (by decide) 0
    ⟨[], [], [], []⟩


theorem stateToks_nextToken (st : PState) :
    stateToks (nextToken st) = st.rest := by
  cases hr : st.rest <;> simp [nextToken, stateToks, hr]

theorem wf_nextToken (st : PState) : WfPState (nextToken st) := by
  cases hr : st.rest <;> intro h <;> simp [nextToken, hr] at h ⊢

theorem stateToks_some (st : PState) (t : Tok) (h : st.cur = some t) :
    stateToks st = t :: st.rest := by
  simp [stateToks, h]

theorem stateToks_none (st : PState) (h : st.cur = none) (hw : WfPState st) :
    stateToks st = [] := by
  simp [stateToks, h, hw h]

theorem compute_atom_cur_none (ops : OpTable)
    (po : String → PyVal → PyVal → PyVal) (st : PState)
    (h : st.cur = none) :
    compute_atom ops po st =
      .error (.exprParseError "Unexpected end of expression") := by
  rw [compute_atom.eq_def]
  split <;> simp_all

theorem compute_atom_cur_value (ops : OpTable)
    (po : String → PyVal → PyVal → PyVal) (st : PState) (v : PyVal)
    (h : st.cur = some (.value v)) :
    compute_atom ops po st = .ok (v, ⟨nextToken st, psize_nextToken_le st⟩) := by
  rw [compute_atom.eq_def]
  split <;> simp_all


theorem compute_atom_cur_rp (ops : OpTable)
    (po : String → PyVal → PyVal → PyVal) (st : PState)
    (h : st.cur = some .rightParen) :
    compute_atom ops po st = .ok (.pyNone, ⟨st, Nat.le_refl _⟩) := by
  rw [compute_atom.eq_def]
  split <;> simp_all

theorem compute_atom_cur_op (ops : OpTable)
    (po : String → PyVal → PyVal → PyVal) (st : PState) (o : String)
    (h : st.cur = some (.op o)) :
    compute_atom ops po st =
      .error (.exprParseError ("Unexpected operator " ++ o ++ " found")) := by
  rw [compute_atom.eq_def]
  split <;> simp_all

theorem compute_atom_lp (ops : OpTable)
    (po : String → PyVal → PyVal → PyVal) (st : PState)
    (hc : st.cur = some .leftParen) :
    compute_atom ops po st =
      match compute_expression ops po 1 (nextToken st) with
      | .error e => .error e
      | .ok (v, ⟨st2, h2⟩) =>
        match st2.cur with
        | none =>
          .error (.attributeError "NoneType object has no attribute name")
        | some .rightParen =>
          .ok (v, ⟨nextToken st2, by
            have h4 := psize_nextToken_le st2
            have h3 := psize_nextToken_lt st (by simp [hc])
            omega⟩)
        | some _ => .error (.exprParseError "Unmatched left parenthesis") := by
  rw [compute_atom.eq_def]
  split
  all_goals try simp_all

theorem spec_atom_nil (ops : OpTable)
    (po : String → PyVal → PyVal → PyVal) :
    spec_atom ops po [] =
      .error (.exprParseError "Unexpected end of expression") := by
  rw [spec_atom.eq_def]

theorem spec_atom_op (ops : OpTable)
    (po : String → PyVal → PyVal → PyVal) (o : String) (ts : List Tok) :
    spec_atom ops po (.op o :: ts) =
      .error (.exprParseError ("Unexpected operator " ++ o ++ " found")) := by
  rw [spec_atom.eq_def]

theorem spec_atom_value (ops : OpTable)
    (po : String → PyVal → PyVal → PyVal) (v : PyVal) (ts : List Tok) :
    spec_atom ops po (.value v :: ts) = .ok (v, ⟨ts, by simp⟩) := by
  rw [spec_atom.eq_def]

theorem spec_atom_rp (ops : OpTable)
    (po : String → PyVal → PyVal → PyVal) (ts : List Tok) :
    spec_atom ops po (.rightParen :: ts) =
      .ok (.pyNone, ⟨.rightParen :: ts, Nat.le_refl _⟩) := by
  rw [spec_atom.eq_def]

theorem spec_atom_lp (ops : OpTable)
    (po : String → PyVal → PyVal → PyVal) (ts : List Tok) :
    spec_atom ops po (.leftParen :: ts) =
      match spec_expr ops po 1 ts with
      | .error e => .error e
      | .ok (v, ⟨ts1, h1⟩) =>
        match ts1, h1 with
        | .rightParen :: ts2, h1 =>
          .ok (v, ⟨ts2, by simp at h1 ⊢; omega⟩)
        | [], _ =>
          .error (.attributeError "NoneType object has no attribute name")
        | _, _ => .error (.exprParseError "Unmatched left parenthesis") := by
  rw [spec_atom.eq_def]


theorem compute_loop_op (ops : OpTable)
    (po : String → PyVal → PyVal → PyVal) (mp : Nat) (lhs : PyVal)
    (st : PState) (o : String) (hc : st.cur = some (.op o)) :
    compute_expr_loop ops po mp lhs st =
      match lookupOp ops o with
      | none => .error (.keyError o)
      | some (prec, assoc) =>
        if prec < mp then .ok (lhs, ⟨st, Nat.le_refl _⟩)
        else
          match compute_expression ops po
              (if assoc = "LEFT" then prec + 1 else prec) (nextToken st) with
          | .error e => .error e
          | .ok (rhs, ⟨st2, h2⟩) =>
            match compute_op ops po o lhs rhs with
            | .error e => .error e
            | .ok lhs1 =>
              match compute_expr_loop ops po mp lhs1 st2 with
              | .error e => .error e
              | .ok (v, ⟨st3, h3⟩) =>
                .ok (v, ⟨st3, by
                  have h4 := psize_nextToken_lt st (by simp [hc])
                  omega⟩) := by
  rw [compute_expr_loop.eq_def]
  split
  · next o2 heq =>
      rw [hc] at heq
      cases heq
      rfl
  · simp_all

theorem compute_loop_other (ops : OpTable)
    (po : String → PyVal → PyVal → PyVal) (mp : Nat) (lhs : PyVal)
    (st : PState) (hc : ∀ o, st.cur ≠ some (.op o)) :
    compute_expr_loop ops po mp lhs st = .ok (lhs, ⟨st, Nat.le_refl _⟩) := by
  rw [compute_expr_loop.eq_def]
  split
  all_goals try simp_all

theorem spec_loop_op (ops : OpTable)
    (po : String → PyVal → PyVal → PyVal) (mp : Nat) (lhs : PyVal)
    (o : String) (ts : List Tok) :
    spec_loop ops po mp lhs (.op o :: ts) =
      match lookupOp ops o with
      | none => .error (.keyError o)
      | some (prec, assoc) =>
        if prec < mp then .ok (lhs, ⟨.op o :: ts, Nat.le_refl _⟩)
        else
          match spec_expr ops po
              (if assoc = "LEFT" then prec + 1 else prec) ts with
          | .error e => .error e
          | .ok (rhs, ⟨ts1, h1⟩) =>
            match compute_op ops po o lhs rhs with
            | .error e => .error e
            | .ok lhs1 =>
              match spec_loop ops po mp lhs1 ts1 with
              | .error e => .error e
              | .ok (v, ⟨ts2, h2⟩) =>
                .ok (v, ⟨ts2, by simp at h1 ⊢; omega⟩) := by
  rw [spec_loop.eq_def]

theorem spec_loop_other (ops : OpTable)
    (po : String → PyVal → PyVal → PyVal) (mp : Nat) (lhs : PyVal)
    (toks : List Tok) (hc : ∀ o ts, toks ≠ .op o :: ts) :
    spec_loop ops po mp lhs toks = .ok (lhs, ⟨toks, Nat.le_refl _⟩) := by
  rw [spec_loop.eq_def]
  split
  · exact absurd rfl (hc _ _)
  · rfl

theorem compute_expression_unfold (ops : OpTable)
    (po : String → PyVal → PyVal → PyVal) (mp : Nat) (st : PState) :
    compute_expression ops po mp st =
      match compute_atom ops po st with
      | .error e => .error e
      | .ok (lhs, ⟨st1, h1⟩) =>
        match compute_expr_loop ops po mp lhs st1 with
        | .error e => .error e
        | .ok (v, ⟨st2, h2⟩) => .ok (v, ⟨st2, by omega⟩) := by
  rw [compute_expression.eq_def]

theorem spec_expr_unfold (ops : OpTable)
    (po : String → PyVal → PyVal → PyVal) (mp : Nat) (toks : List Tok) :
    spec_expr ops po mp toks =
      match spec_atom ops po toks with
      | .error e => .error e
      | .ok (lhs, ⟨ts1, h1⟩) =>
        match spec_loop ops po mp lhs ts1 with
        | .error e => .error e
        | .ok (v, ⟨ts2, h2⟩) => .ok (v, ⟨ts2, by omega⟩) := by
  rw [spec_expr.eq_def]

theorem mapToks_inv {st : PState} {ts : List Tok}
    (x : Except Err (PyVal × {st1 : PState // psize st1 ≤ psize st}))
    (y : Except Err (PyVal × {l : List Tok // l.length ≤ ts.length}))
    (h : mapToksC x = mapToksS y) :
    (∀ e, x = .error e → y = .error e) ∧
    (∀ v s, x = .ok (v, s) →
      ∃ hl : (stateToks s.1).length ≤ ts.length,
        y = .ok (v, ⟨stateToks s.1, hl⟩)) := by
  constructor
  · intro e hx
    rw [hx] at h
    cases y with
    | error e2 =>
      simp only [mapToksC, mapToksS] at h
      cases h
      rfl
    | ok p => simp [mapToksC, mapToksS] at h
  · intro v s hx
    rw [hx] at h
    cases y with
    | error e2 => simp [mapToksC, mapToksS] at h
    | ok p =>
      obtain ⟨v2, ts1, hl⟩ := p
      simp only [mapToksC, mapToksS] at h
      cases h
      exact ⟨hl, rfl⟩


theorem ok_subtype_congr {N : Nat} (v : PyVal) (l1 l2 : List Tok)
    (h : l1 = l2) (hl : l1.length ≤ N) :
    (Except.ok (v, ⟨l1, hl⟩) :
        Except Err (PyVal × {l : List Tok // l.length ≤ N})) =
      .ok (v, ⟨l2, h ▸ hl⟩) := by
  subst h
  rfl

theorem parser_equiv (ops : OpTable) (po : String → PyVal → PyVal → PyVal) :
    ∀ n : Nat,
      (∀ st : PState, psize st * 3 ≤ n → WfPState st →
        mapToksC (compute_atom ops po st) =
          mapToksS (spec_atom ops po (stateToks st)) ∧
        WfExcept (compute_atom ops po st)) ∧
      (∀ (mp : Nat) (lhs : PyVal) (st : PState), psize st * 3 + 1 ≤ n →
        WfPState st →
        mapToksC (compute_expr_loop ops po mp lhs st) =
          mapToksS (spec_loop ops po mp lhs (stateToks st)) ∧
        WfExcept (compute_expr_loop ops po mp lhs st)) ∧
      (∀ (mp : Nat) (st : PState), psize st * 3 + 2 ≤ n → WfPState st →
        mapToksC (compute_expression ops po mp st) =
          mapToksS (spec_expr ops po mp (stateToks st)) ∧
        WfExcept (compute_expression ops po mp st)) := by
  intro n
  induction n using Nat.strong_induction_on with
  | _ n ih =>
  refine ⟨?_, ?_, ?_⟩
  · -- atom
    intro st hn hwf
    cases hcur : st.cur with
    | none =>
      rw [compute_atom_cur_none ops po st hcur,
          stateToks_none st hcur hwf, spec_atom_nil]
      exact ⟨rfl, fun v s hco => Except.noConfusion hco⟩
    | some t =>
      rw [stateToks_some st t hcur]
      cases t with
      | value v =>
        rw [compute_atom_cur_value ops po st v hcur, spec_atom_value]
        refine ⟨?_, ?_⟩
        · simp only [mapToksC, mapToksS]
          rw [stateToks_nextToken]
        · intro v2 s hco
          cases hco
          exact wf_nextToken st
      | rightParen =>
        rw [compute_atom_cur_rp ops po st hcur, spec_atom_rp]
        refine ⟨?_, ?_⟩
        · simp only [mapToksC, mapToksS]
          rw [stateToks_some st _ hcur]
        · intro v2 s hco
          cases hco
          exact hwf
      | op o =>
        rw [compute_atom_cur_op ops po st o hcur, spec_atom_op]
        exact ⟨rfl, fun v s hco => Except.noConfusion hco⟩
      | leftParen =>
        have hlt := psize_nextToken_lt st (by simp [hcur])
        obtain ⟨hEq, hWf⟩ :=
          (ih (psize (nextToken st) * 3 + 2) (by omega)).2.2 1 (nextToken st)
            (Nat.le_refl _) (wf_nextToken st)
        rw [stateToks_nextToken] at hEq
        obtain ⟨hinvE, hinvO⟩ := mapToks_inv _ _ hEq
        cases hr : compute_expression ops po 1 (nextToken st) with
        | error e =>
          have hs := hinvE e hr
          rw [compute_atom_lp ops po st hcur, spec_atom_lp, hr, hs]
          exact ⟨rfl, fun v s hco => Except.noConfusion hco⟩
        | ok p =>
          obtain ⟨v, st2, h2⟩ := p
          obtain ⟨hl, hy⟩ := hinvO v ⟨st2, h2⟩ hr
          have hwf2 : WfPState st2 := hWf v ⟨st2, h2⟩ hr
          cases hc2 : st2.cur with
          | none =>
            have hst : stateToks st2 = [] := stateToks_none st2 hc2 hwf2
            have hy2 := hy.trans (ok_subtype_congr v _ _ hst hl)
            rw [compute_atom_lp ops po st hcur, spec_atom_lp, hr, hy2]
            dsimp only
            rw [hc2]
            exact ⟨rfl, fun v2 s hco => Except.noConfusion hco⟩
          | some t2 =>
            have hst : stateToks st2 = t2 :: st2.rest :=
              stateToks_some st2 t2 hc2
            have hy2 := hy.trans (ok_subtype_congr v _ _ hst hl)
            cases t2 with
            | rightParen =>
              rw [compute_atom_lp ops po st hcur, spec_atom_lp, hr, hy2]
              dsimp only
              rw [hc2]
              refine ⟨?_, ?_⟩
              · simp only [mapToksC, mapToksS]
                rw [stateToks_nextToken]
              · intro v2 s hco
                cases hco
                exact wf_nextToken st2
            | leftParen =>
              rw [compute_atom_lp ops po st hcur, spec_atom_lp, hr, hy2]
              dsimp only
              rw [hc2]
              exact ⟨rfl, fun v2 s hco => Except.noConfusion hco⟩
            | value v3 =>
              rw [compute_atom_lp ops po st hcur, spec_atom_lp, hr, hy2]
              dsimp only
              rw [hc2]
              exact ⟨rfl, fun v2 s hco => Except.noConfusion hco⟩
            | op o =>
              rw [compute_atom_lp ops po st hcur, spec_atom_lp, hr, hy2]
              dsimp only
              rw [hc2]
              exact ⟨rfl, fun v2 s hco => Except.noConfusion hco⟩
  · -- loop
    intro mp lhs st hn hwf
    cases hcur : st.cur with
    | none =>
      rw [compute_loop_other ops po mp lhs st (by simp [hcur]),
          stateToks_none st hcur hwf,
          spec_loop_other ops po mp lhs [] (by simp)]
      refine ⟨?_, ?_⟩
      · simp only [mapToksC, mapToksS]
        rw [stateToks_none st hcur hwf]
      · intro v s hco
        cases hco
        exact hwf
    | some t =>
      rw [stateToks_some st t hcur]
      cases t with
      | leftParen =>
        rw [compute_loop_other ops po mp lhs st (by simp [hcur]),
            spec_loop_other ops po mp lhs _ (by intro o ts h; cases h)]
        refine ⟨?_, ?_⟩
        · simp only [mapToksC, mapToksS]
          rw [stateToks_some st _ hcur]
        · intro v s hco
          cases hco
          exact hwf
      | rightParen =>
        rw [compute_loop_other ops po mp lhs st (by simp [hcur]),
            spec_loop_other ops po mp lhs _ (by intro o ts h; cases h)]
        refine ⟨?_, ?_⟩
        · simp only [mapToksC, mapToksS]
          rw [stateToks_some st _ hcur]
        · intro v s hco
          cases hco
          exact hwf
      | value v0 =>
        rw [compute_loop_other ops po mp lhs st (by simp [hcur]),
            spec_loop_other ops po mp lhs _ (by intro o ts h; cases h)]
        refine ⟨?_, ?_⟩
        · simp only [mapToksC, mapToksS]
          rw [stateToks_some st _ hcur]
        · intro v s hco
          cases hco
          exact hwf
      | op o =>
        rw [compute_loop_op ops po mp lhs st o hcur, spec_loop_op]
        cases hlook : lookupOp ops o with
        | none =>
          exact ⟨rfl, fun v s hco => Except.noConfusion hco⟩
        | some pa =>
          obtain ⟨prec, assoc⟩ := pa
          dsimp only
          by_cases hpm : prec < mp
          · rw [if_pos hpm, if_pos hpm]
            refine ⟨?_, ?_⟩
            · simp only [mapToksC, mapToksS]
              rw [stateToks_some st _ hcur]
            · intro v s hco
              cases hco
              exact hwf
          · rw [if_neg hpm, if_neg hpm]
            have hlt := psize_nextToken_lt st (by simp [hcur])
            obtain ⟨hEq, hWf⟩ :=
              (ih (psize (nextToken st) * 3 + 2) (by omega)).2.2
                (if assoc = "LEFT" then prec + 1 else prec) (nextToken st)
                (Nat.le_refl _) (wf_nextToken st)
            rw [stateToks_nextToken] at hEq
            obtain ⟨hinvE, hinvO⟩ := mapToks_inv _ _ hEq
            cases hr : compute_expression ops po
                (if assoc = "LEFT" then prec + 1 else prec)
                (nextToken st) with
            | error e =>
              rw [hinvE e hr]
              exact ⟨rfl, fun v s hco => Except.noConfusion hco⟩
            | ok p =>
              obtain ⟨rhs, st2, h2⟩ := p
              obtain ⟨hl, hy⟩ := hinvO rhs ⟨st2, h2⟩ hr
              have hwf2 := hWf rhs ⟨st2, h2⟩ hr
              rw [hy]
              dsimp only
              cases hop : compute_op ops po o lhs rhs with
              | error e =>
                exact ⟨rfl, fun v s hco => Except.noConfusion hco⟩
              | ok lhs1 =>
                dsimp only
                obtain ⟨hEq2, hWf2⟩ :=
                  (ih (psize st2 * 3 + 1) (by omega)).2.1 mp lhs1 st2
                    (Nat.le_refl _) hwf2
                obtain ⟨hinvE2, hinvO2⟩ := mapToks_inv _ _ hEq2
                cases hr2 : compute_expr_loop ops po mp lhs1 st2 with
                | error e =>
                  rw [hinvE2 e hr2]
                  exact ⟨rfl, fun v s hco => Except.noConfusion hco⟩
                | ok p2 =>
                  obtain ⟨v, st3, h3⟩ := p2
                  obtain ⟨hl2, hy2⟩ := hinvO2 v ⟨st3, h3⟩ hr2
                  have hwf3 := hWf2 v ⟨st3, h3⟩ hr2
                  rw [hy2]
                  dsimp only
                  refine ⟨rfl, ?_⟩
                  intro v2 s hco
                  cases hco
                  exact hwf3
  · -- expr
    intro mp st hn hwf
    obtain ⟨hEqA, hWfA⟩ :=
      (ih (psize st * 3) (by omega)).1 st (Nat.le_refl _) hwf
    obtain ⟨hinvEA, hinvOA⟩ := mapToks_inv _ _ hEqA
    rw [compute_expression_unfold, spec_expr_unfold]
    cases hra : compute_atom ops po st with
    | error e =>
      rw [hinvEA e hra]
      exact ⟨rfl, fun v s hco => Except.noConfusion hco⟩
    | ok p =>
      obtain ⟨lhs, st1, h1⟩ := p
      obtain ⟨hl, hy⟩ := hinvOA lhs ⟨st1, h1⟩ hra
      have hwf1 := hWfA lhs ⟨st1, h1⟩ hra
      rw [hy]
      dsimp only
      obtain ⟨hEqL, hWfL⟩ :=
        (ih (psize st1 * 3 + 1) (by omega)).2.1 mp lhs st1
          (Nat.le_refl _) hwf1
      obtain ⟨hinvEL, hinvOL⟩ := mapToks_inv _ _ hEqL
      cases hrl : compute_expr_loop ops po mp lhs st1 with
      | error e =>
        rw [hinvEL e hrl]
        exact ⟨rfl, fun v s hco => Except.noConfusion hco⟩
      | ok p2 =>
        obtain ⟨v, st2, h2⟩ := p2
        obtain ⟨hl2, hy2⟩ := hinvOL v ⟨st2, h2⟩ hrl
        have hwf2 := hWfL v ⟨st2, h2⟩ hrl
        rw [hy2]
        dsimp only
        refine ⟨rfl, ?_⟩
        intro v2 s hco
        cases hco
        exact hwf2


/-- C4 (amended): `parse` implements precedence climbing as specified —
atom then operator loop with precedence+1 recursion for left-associative
operators — matching the spec-side parser `spec_expr` on the token list,
once two code behaviours are amended into the specification: input ending
at a missing closing parenthesis raises AttributeError rather than the
syntax error, and a right-parenthesis token where a value is expected
yields Python None without being consumed. -/
theorem c4_parse_precedence_climbing :
    ∀ (p : ExprParser) (lexemes : List String),
      p.tokens = none →
      (parse p lexemes).1 =
        match spec_expr p.ops p.processOp 1
            (iter_tokens p.ops p.processValue lexemes) with
        | .error e => .error e
        | .ok (v, _) => .ok v := by
  intro p lexemes hp
  unfold parse
  rw [hp]
  simp only [Option.isSome_none, Bool.false_eq_true, if_false]
  have hEq :=
    ((parser_equiv p.ops p.processOp
        (psize (nextToken
          ⟨none, iter_tokens p.ops p.processValue lexemes⟩) * 3 + 2)).2.2
      1 (nextToken ⟨none, iter_tokens p.ops p.processValue lexemes⟩)
      (Nat.le_refl _) (wf_nextToken _)).1
  rw [stateToks_nextToken] at hEq
  obtain ⟨hinvE, hinvO⟩ := mapToks_inv _ _ hEq
  cases hr : compute_expression p.ops p.processOp 1
      (nextToken ⟨none, iter_tokens p.ops p.processValue lexemes⟩) with
  | error e =>
    rw [hinvE e hr]
  | ok pp =>
    obtain ⟨v, s2⟩ := pp
    obtain ⟨hl, hy⟩ := hinvO v s2 hr
    rw [hy]

/-- Counterexample for C4 as stated: on the expression tokens ( a — a
premature end of input — `parse` raises AttributeError, not the syntax
error the specification promises. -/
theorem c4_counterexample :
    (parse ⟨[("&&", 1, "LEFT")], PyVal.str, (fun o _ _ => PyVal.str o),
        none, none⟩ ["(", "a"]).1 =
      .error (.attributeError "NoneType object has no attribute name") := by
  simp +decide [parse, iter_tokens, lookupOp, strip_quotes, nextToken,
    compute_expression.eq_def, compute_atom.eq_def, compute_expr_loop.eq_def,
    compute_op]

/-- Witness for the amended C4 at a concrete parser and input: x && y
combines the two sides through the operator callback. -/
theorem c4_parse_precedence_climbing_witness :
    (parse (ExprParser.mk [("&&", 1, "LEFT")] PyVal.str
        (fun o _ _ => PyVal.str o) none none) ["x", "&&", "y"]).1 =
      .ok (.str "&&") := by
  have h := c4_parse_precedence_climbing
    (ExprParser.mk [("&&", 1, "LEFT")] PyVal.str
      (fun o _ _ => PyVal.str o) none none) ["x", "&&", "y"] rfl
  rw [h]
  simp +decide [spec_expr.eq_def, spec_atom.eq_def, spec_loop.eq_def,
    iter_tokens, lookupOp, strip_quotes, compute_op]


theorem dictGet_map_set (k : String) (v : PyVal) :
    ∀ d : List (String × PyVal),
      dictGet (d.map (fun p => if p.1 == k then (k, v) else p)) k =
        if d.any (fun p => p.1 == k) then some v else none := by
  intro d
  induction d with
  | nil => rfl
  | cons p rest ih =>
    by_cases hp : p.1 == k
    · simp only [List.map_cons, List.any_cons, hp, if_pos, Bool.true_or,
        if_true]
      simp [dictGet]
    · simp only [List.map_cons, List.any_cons, hp, if_neg, Bool.false_or]
      simp only [dictGet, List.find?] at ih ⊢
      rw [if_neg (by simp_all)]
      simp only [hp]
      exact ih

theorem dictGet_append_nomem (k : String) (v : PyVal) :
    ∀ d : List (String × PyVal),
      d.any (fun p => p.1 == k) = false →
      dictGet (d ++ [(k, v)]) k = some v := by
  intro d
  induction d with
  | nil => simp [dictGet]
  | cons p rest ih =>
    intro ha
    simp only [List.any_cons, Bool.or_eq_false_iff] at ha
    simp only [List.cons_append, dictGet, List.find?, ha.1]
    exact ih ha.2

theorem dictGet_dictSet_same (d : List (String × PyVal)) (k : String)
    (v : PyVal) : dictGet (dictSet d k v) k = some v := by
  unfold dictSet
  by_cases ha : d.any (fun p => p.1 == k)
  · rw [if_pos ha, dictGet_map_set, if_pos ha]
  · rw [if_neg ha, dictGet_append_nomem k v d (Bool.eq_false_iff.mpr ha)]

theorem dictGet_dictSet_other (d : List (String × PyVal)) (k k2 : String)
    (v : PyVal) (h : (k2 == k) = false) :
    dictGet (dictSet d k v) k2 = dictGet d k2 := by
  have h2 : (k == k2) = false := by
    simp only [beq_eq_false_iff_ne] at h ⊢
    exact fun he => h he.symm
  unfold dictSet
  by_cases ha : d.any (fun p => p.1 == k)
  · rw [if_pos ha]
    clear ha
    induction d with
    | nil => rfl
    | cons p rest ih =>
      simp only [List.map_cons]
      by_cases hp : p.1 == k
      · have hpk : p.1 = k := by simpa using hp
        rw [if_pos hp]
        simp only [dictGet, List.find?, h2, hpk]
        simp only [dictGet] at ih
        exact ih
      · rw [if_neg hp]
        simp only [dictGet, List.find?]
        cases hpq : (p.1 == k2) with
        | true => rfl
        | false =>
          simp only [dictGet] at ih
          exact ih
  · rw [if_neg ha]
    simp only [dictGet, List.find?_append]
    cases hf : List.find? (fun p => p.1 == k2) d with
    | some p => rfl
    | none => simp [List.find?, h2]

theorem dictGet_none_forall (d : List (String × PyVal)) (k : String)
    (h : dictGet d k = none) : ∀ p ∈ d, (p.1 == k) = false := by
  have hf : List.find? (fun p => p.1 == k) d = none := by
    cases hff : List.find? (fun p => p.1 == k) d with
    | none => rfl
    | some p =>
      rw [dictGet, hff] at h
      exact Option.noConfusion h
  intro p hp
  simpa using List.find?_eq_none.mp hf p hp

theorem dictGet_dictUpdate_notmem (other : List (String × PyVal)) :
    ∀ (d : List (String × PyVal)) (k : String),
      (∀ p ∈ other, (p.1 == k) = false) →
      dictGet (dictUpdate d other) k = dictGet d k := by
  induction other with
  | nil => intro d k _; rfl
  | cons p rest ih =>
    intro d k h
    have h1 : dictUpdate d (p :: rest) =
        dictUpdate (dictSet d p.1 p.2) rest := rfl
    rw [h1, ih (dictSet d p.1 p.2) k (fun q hq => h q (by simp [hq]))]
    exact dictGet_dictSet_other d p.1 k p.2 (by
      have := h p (by simp)
      simp only [beq_eq_false_iff_ne] at this ⊢
      exact fun he => this he.symm)

theorem dictGet_dictUpdate_mem (other : List (String × PyVal)) :
    ∀ (d : List (String × PyVal)) (k : String) (v : PyVal),
      (other.map Prod.fst).Nodup →
      dictGet other k = some v →
      dictGet (dictUpdate d other) k = some v := by
  induction other with
  | nil => intro d k v _ h; exact Option.noConfusion h
  | cons p rest ih =>
    intro d k v hnd h
    simp only [List.map_cons, List.nodup_cons] at hnd
    by_cases hp : p.1 == k
    · have hpk : p.1 = k := by simpa using hp
      have hv : p.2 = v := by
        simp only [dictGet, List.find?, hp] at h
        simpa using h
      have hrest : ∀ q ∈ rest, (q.1 == k) = false := by
        intro q hq
        simp only [beq_eq_false_iff_ne]
        intro he
        refine hnd.1 ?_
        rw [hpk, ← he]
        exact List.mem_map_of_mem Prod.fst hq
      have h1 : dictUpdate d (p :: rest) =
          dictUpdate (dictSet d p.1 p.2) rest := rfl
      rw [h1, dictGet_dictUpdate_notmem rest (dictSet d p.1 p.2) k hrest,
          hpk, hv]
      exact dictGet_dictSet_same d k v
    · have h2 : dictGet rest k = some v := by
        simp only [dictGet, List.find?, hp] at h
        exact h
      have h1 : dictUpdate d (p :: rest) =
          dictUpdate (dictSet d p.1 p.2) rest := rfl
      rw [h1]
      exact ih (dictSet d p.1 p.2) k v hnd.2 h2


theorem process_tree_cf_frame :
    ∀ (fuel : Nat) (st : TState) (node : PyVal)
      (vars : List (String × PyVal)) (rv : Bool) (v : PyVal) (st1 : TState),
      process_tree_cf fuel st node vars rv = .ok (v, st1) →
      st1.vars = st.vars ∧ st1.macros = st.macros := by
  intro fuel
  induction fuel with
  | zero => intro st node vars rv v st1 h; simp [process_tree_cf] at h
  | succ fuel ih =>
    intro st node vars rv v st1 h
    have htrans : ∀ a b c : TState,
        (b.vars = a.vars ∧ b.macros = a.macros) →
        (c.vars = b.vars ∧ c.macros = b.macros) →
        (c.vars = a.vars ∧ c.macros = a.macros) :=
      fun a b c h1 h2 => ⟨h2.1.trans h1.1, h2.2.trans h1.2⟩
    have hrefl : ∀ a : TState, a.vars = a.vars ∧ a.macros = a.macros :=
      fun a => ⟨rfl, rfl⟩
    have hstep : ∀ (s : TState) (n v2 : PyVal) (s2 : TState),
        process_tree_cf fuel s n vars rv = .ok (v2, s2) →
        s2.vars = s.vars ∧ s2.macros = s.macros :=
      fun s n v2 s2 hc => ih s n vars rv v2 s2 hc
    cases node with
    | dict pairs =>
      simp only [process_tree_cf] at h
      cases hf : processPairsFold
          (fun s n => process_tree_cf fuel s n vars rv)
          (fun s n => process_tree_cf fuel s n vars rv) pairs ([], st) with
      | error e => rw [hf] at h; simp [bind, Except.bind] at h
      | ok out =>
        obtain ⟨pairs1, s2⟩ := out
        rw [hf] at h
        simp only [bind, Except.bind] at h
        have hrel := processPairsFold_rel _ _ _ htrans hrefl hstep hstep
          pairs ([], st) (pairs1, s2) hf
        cases h
        exact hrel
    | list kind items =>
      simp only [process_tree_cf] at h
      cases hc : collapse_variables st kind items vars with
      | error e => rw [hc] at h; simp [bind, Except.bind] at h
      | ok out1 =>
        obtain ⟨collapsed, s1⟩ := out1
        rw [hc] at h
        simp only [bind, Except.bind] at h
        cases hfold : processItemsFold
            (fun s n => process_tree_cf fuel s n vars rv)
            collapsed ([], s1) with
        | error e => rw [hfold] at h; simp at h
        | ok out2 =>
          obtain ⟨value, s2⟩ := out2
          rw [hfold] at h
          simp only at h
          unfold collapse_variables at hc
          have hcol := collapse_go_fields _ vars items [] false st
            collapsed s1 hc
          have hP1 : s1.vars = st.vars ∧ s1.macros = st.macros :=
            ⟨hcol.1, hcol.2.1⟩
          have hP2 := processItemsFold_rel _ _ htrans hrefl hstep collapsed
            ([], s1) (value, s2) hfold
          have hP := htrans _ _ _ hP1 hP2
          cases kind with
          | varsStrings =>
            by_cases hall : value.all isStr = true
            · rw [if_pos hall] at h; cases h; exact hP
            · rw [if_neg hall] at h; cases h; exact hP
          | uncollapsible => cases h; exact hP
          | plain => cases h; exact hP
    | varRef id name =>
      simp only [process_tree_cf] at h
      cases hrv : rv with
      | false =>
        rw [hrv] at h
        simp only [Bool.false_eq_true, if_false] at h
        cases h
        exact hrefl st
      | true =>
        rw [hrv] at h
        simp only [if_true] at h
        cases hr : resolve name vars with
        | ok v2 =>
          rw [hr] at h
          cases h
          exact ⟨rfl, rfl⟩
        | error e =>
          rw [hr] at h
          cases e <;> simp at h
    | str s =>
      simp only [process_tree_cf] at h
      cases h
      exact hrefl st
    | pyNone =>
      simp only [process_tree_cf] at h
      cases h
      exact hrefl st
    | ifCond c =>
      simp only [process_tree_cf] at h
      cases h
      exact hrefl st

theorem process_macro_cf_frame (fuel : Nat) (st : TState) (content : PyVal)
    (scope : List (String × PyVal)) (v : PyVal) (st1 : TState)
    (h : process_macro_cf fuel st content scope = .ok (v, st1)) :
    st1.vars = st.vars ∧ st1.macros = st.macros := by
  unfold process_macro_cf at h
  cases hr : process_tree_cf fuel st content scope true with
  | ok out =>
    obtain ⟨v2, s2⟩ := out
    rw [hr] at h
    cases h
    exact process_tree_cf_frame fuel st content scope true _ _ hr
  | error e =>
    rw [hr] at h
    cases e <;> simp at h


/-- C6: call-macro expands the macro content in an isolated scope — the
caller's ambient variables overlaid by the macro's default parameters
overlaid by the explicit call-site overrides, overrides taking precedence
at every key — and a successful expansion leaves the shared ambient
variable bindings and the macro table unchanged, so a second call to the
same macro builds its scope from the very same ambient bindings and no
binding leaks between calls. -/
theorem c6_call_macro_isolation :
    (∀ (fuel : Nat) (st : TState) (values : List (String × PyVal))
       (name : String) (mac content : PyVal),
       dictGet values "macro" = some (.str name) →
       resolve name st.macros = .ok mac →
       subscript mac "content" = .ok content →
       construct_call_macro_cf fuel st values =
         process_macro_cf fuel st content
           (macro_scope st.vars (pyDictGetD mac "defaultParams" (.dict []))
             (values.filter (fun p => p.1 ≠ "macro")))) ∧
    (∀ (amb : List (String × PyVal)) (defaults : PyVal)
       (ovr : List (String × PyVal)) (k : String) (v : PyVal),
       (ovr.map Prod.fst).Nodup →
       dictGet ovr k = some v →
       dictGet (macro_scope amb defaults ovr) k = some v) ∧
    (∀ (amb : List (String × PyVal)) (defaults : PyVal)
       (ovr : List (String × PyVal)) (k : String) (v : PyVal),
       ((asVarsDict defaults).map Prod.fst).Nodup →
       dictGet ovr k = none →
       dictGet (asVarsDict defaults) k = some v →
       dictGet (macro_scope amb defaults ovr) k = some v) ∧
    (∀ (amb : List (String × PyVal)) (defaults : PyVal)
       (ovr : List (String × PyVal)) (k : String),
       dictGet ovr k = none →
       dictGet (asVarsDict defaults) k = none →
       dictGet (macro_scope amb defaults ovr) k = dictGet amb k) ∧
    (∀ (fuel : Nat) (st : TState) (values : List (String × PyVal))
       (v : PyVal) (st1 : TState),
       construct_call_macro_cf fuel st values = .ok (v, st1) →
       st1.vars = st.vars ∧ st1.macros = st.macros) := by
  refine ⟨?_, ?_, ?_, ?_, ?_⟩
  · intro fuel st values name mac content h1 h2 h3
    unfold construct_call_macro_cf
    rw [h1]
    dsimp only
    rw [h2]
    dsimp only
    rw [h3]
  · intro amb defaults ovr k v hnd h
    exact dictGet_dictUpdate_mem ovr _ k v hnd h
  · intro amb defaults ovr k v hnd hno h
    unfold macro_scope
    rw [dictGet_dictUpdate_notmem ovr _ k (dictGet_none_forall ovr k hno)]
    exact dictGet_dictUpdate_mem (asVarsDict defaults) amb k v hnd h
  · intro amb defaults ovr k hno1 hno2
    unfold macro_scope
    rw [dictGet_dictUpdate_notmem ovr _ k (dictGet_none_forall ovr k hno1)]
    exact dictGet_dictUpdate_notmem (asVarsDict defaults) amb k
      (dictGet_none_forall _ k hno2)
  · intro fuel st values v st1 h
    unfold construct_call_macro_cf at h
    cases hg : dictGet values "macro" with
    | none => rw [hg] at h; exact Except.noConfusion h
    | some nameVal =>
      rw [hg] at h
      dsimp only at h
      cases nameVal with
      | str name =>
        dsimp only at h
        cases hr : resolve name st.macros with
        | error e =>
          rw [hr] at h
          cases e <;> exact Except.noConfusion h
        | ok mac =>
          rw [hr] at h
          dsimp only at h
          cases hs : subscript mac "content" with
          | error e =>
            rw [hs] at h
            cases e <;> exact Except.noConfusion h
          | ok content =>
            rw [hs] at h
            dsimp only at h
            exact process_macro_cf_frame fuel st content _ v st1 h
      | pyNone => exact Except.noConfusion h
      | dict pairs => exact Except.noConfusion h
      | list kind items => exact Except.noConfusion h
      | varRef id nm => exact Except.noConfusion h
      | ifCond c => exact Except.noConfusion h


/-- Witness for C6 at a concrete macro table: calling macro m with the
override p=x expands its content against the isolated scope. -/
theorem c6_call_macro_isolation_witness :
    construct_call_macro_cf 5
      ⟨[("ambient", .str "a0")],
       [("m", .dict [(.str "content", .str "hello"),
                     (.str "defaultParams", .dict [(.str "p", .str "d")])])],
       [], []⟩
      [("macro", .str "m"), ("p", .str "x")] =
    process_macro_cf 5
      ⟨[("ambient", .str "a0")],
       [("m", .dict [(.str "content", .str "hello"),
                     (.str "defaultParams", .dict [(.str "p", .str "d")])])],
       [], []⟩
      (.str "hello")
      (macro_scope [("ambient", .str "a0")]
        (pyDictGetD
          (.dict [(.str "content", .str "hello"),
                  (.str "defaultParams", .dict [(.str "p", .str "d")])])
          "defaultParams" (.dict []))
        (([("macro", PyVal.str "m"), ("p", PyVal.str "x")]).filter
          (fun p => p.1 ≠ "macro"))) :=
  c6_call_macro_isolation.1 5
    ⟨[("ambient", .str "a0")],
     [("m", .dict [(.str "content", .str "hello"),
                   (.str "defaultParams", .dict [(.str "p", .str "d")])])],
     [], []⟩
    [("macro", .str "m"), ("p", .str "x")] "m"
    (.dict [(.str "content", .str "hello"),
            (.str "defaultParams", .dict [(.str "p", .str "d")])])
    (.str "hello") rfl rfl rfl

end CloudPuff
